import Mathlib

/-!
Inverted index (`src/main.cpp`): shallow embedding and verification.

The program keeps an in-memory inverted index: `Database::readDoc` counts the
normalised words of a document and appends one posting `(docID, count)` per
word, `Database::queryWord` prints a posting list, `Database::sort` re-orders
every posting list by descending count and, in the `CHECK` build,
`Database::checkQueryWord` recounts a word in the recorded source files.

Modelling decisions.

* `std::string` is `String`; `std::vector<std::pair<int, int>>` is a list of
  pairs of naturals (document ids and counts start at `0` and only grow; the
  model covers executions in which they stay below `2^31`, signed overflow
  being undefined behaviour in C++); `topnum` is an `Int`.
* `std::shared_ptr<postings>` is `Option postings`, `none` being the null
  pointer. Every vector is owned by exactly one index entry, so a `push_back`
  or a `std::sort` through the pointer is a rebinding of that entry.
* `std::map` is an association list kept in ascending key order
  (`StdMap`). The same representation serves the `ART`, `RBT` and `HASH`
  builds; they differ in how a key is looked up (`get` against `operator[]`).
  The `ART` library takes its keys as C strings; words holding a zero byte are
  outside the model.
* The Porter2 library (`trim`, `stem`) and `std::sort` are external: the
  development is parametric in them (`Porter2Stemmer`, `StdSort`), the latter
  constrained by the contract the C++ standard gives `std::sort`. Where the
  behaviour on ties matters, `gnuSort` follows the `std::sort` of libstdc++
  (introsort with threshold 16, then insertion sort).
* The file system is a function from paths to contents, passed to every call,
  so files may change between calls. Lines written to `std::cerr` and the
  `BENCHMARK` timing code are not modelled.
-/

namespace ADS

/-! ## Strings, streams and the external stemmer -/

/-- The `trim` and `stem` functions of the external Porter2 library
(`porter2_stemmer/porter2_stemmer.h`), both rewriting a word in place. -/
structure Porter2Stemmer where
  trim : String → String
  stem : String → String

/-- The three index back ends selected at compile time. -/
inductive Backend
  | ART
  | RBT
  | HASH
  deriving DecidableEq, Repr

/-- One posting `std::pair<int, int>`: document id and word count. -/
abbrev Posting := Nat × Nat

/-- The type `postings = std::vector<std::pair<int, int>>`. -/
abbrev postings := List Posting

/-- The requirement the C++ standard puts on a comparator handed to
`std::sort`: a strict weak ordering. -/
structure StrictWeakOrdering (comp : Posting → Posting → Bool) : Prop where
  irrefl : ∀ a, comp a a = false
  trans : ∀ a b c, comp a b = true → comp b c = true → comp a c = true
  equiv_trans : ∀ a b c, comp a b = false → comp b a = false →
    comp b c = false → comp c b = false → comp a c = false ∧ comp c a = false

/-- The library routine `std::sort`, known through its contract only: the
result is a rearrangement of the range in which no element compares less than
an earlier one. The order of equivalent elements is not fixed. -/
structure StdSort where
  sort : (Posting → Posting → Bool) → postings → postings
  perm : ∀ comp l, (sort comp l).Perm l
  sorted : ∀ comp l, StrictWeakOrdering comp →
    (sort comp l).Pairwise (fun a b => comp b a = false)

/-- Build configuration and external collaborators. `noStemming` and
`noOutput` are the `NO_STEMMING` and `NO_OUTPUT` compile-time switches. -/
structure Env where
  backend : Backend
  noStemming : Bool
  noOutput : Bool
  porter : Porter2Stemmer
  stdsort : StdSort

/-- The call `std::transform(str.begin(), str.end(), str.begin(), tolower)`. -/
def tolower (str : String) : String :=
  String.mk (str.data.map Char.toLower)

/-- The function `stemming` of `main.cpp`: lower-case, trim, then stem unless
the build disables stemming. -/
def stemming (E : Env) (str : String) : String :=
  let str := E.porter.trim (tolower str)
  if E.noStemming then str else E.porter.stem str

/-- White space as skipped by `operator>>` in the C locale. -/
def isspace (c : Char) : Bool :=
  c.toNat == 32 || (9 ≤ c.toNat && c.toNat ≤ 13)

/-- Worker of `tokens`: `cur` holds the characters of the word being read,
latest first. -/
def extract : List Char → List Char → List String
  | [], cur => if cur.isEmpty then [] else [String.mk cur.reverse]
  | c :: cs, cur =>
    if isspace c then
      if cur.isEmpty then extract cs [] else String.mk cur.reverse :: extract cs []
    else extract cs (c :: cur)

/-- The words produced by the loop `for (std::string str; in >> str;)` over a
stream with the given content. -/
def tokens (content : String) : List String :=
  extract content.data []

/-- A file system: the content of each path that can be opened. -/
abbrev FS := String → Option String

/-! ## Ordered maps -/

/-- Lexicographic comparison of character sequences by character code. -/
def ltChars : List Char → List Char → Bool
  | _, [] => false
  | [], _ :: _ => true
  | a :: as, b :: bs => a.toNat < b.toNat || (a.toNat == b.toNat && ltChars as bs)

/-- The order `std::less<std::string>` used by `std::map`. -/
def strLess (a b : String) : Bool :=
  ltChars a.data b.data

/-- A `std::map<std::string, β>`: entries in ascending key order. -/
abbrev StdMap (β : Type) := List (String × β)

/-- Lookup of a key (`find`). -/
def StdMap.find? {β : Type} : StdMap β → String → Option β
  | [], _ => none
  | (k, v) :: rest, key => if key = k then some v else StdMap.find? rest key

/-- Insert-or-assign of a key at its place in the key order. -/
def StdMap.set {β : Type} : StdMap β → String → β → StdMap β
  | [], key, val => [(key, val)]
  | (k, v) :: rest, key, val =>
    if strLess key k then (key, val) :: (k, v) :: rest
    else if key = k then (key, val) :: rest
    else (k, v) :: StdMap.set rest key val

/-- The statement `word_count[word]++` on a `std::map<std::string, int>`: a
missing key is first created with value `0`. -/
def StdMap.incr (m : StdMap Nat) (word : String) : StdMap Nat :=
  match m.find? word with
  | none => m.set word 1
  | some n => m.set word (n + 1)

/-- The inverted index `invert_index_`. -/
abbrev Index := StdMap (Option postings)

/-- Lookup `invert_index_.get(key)` of the `ART` build: the stored pointer, or
a null pointer when the key is absent. The index is not changed. -/
def Index.get (idx : Index) (key : String) : Option postings :=
  (StdMap.find? idx key).join

/-- Lookup `invert_index_[key]` of the `RBT` and `HASH` builds: when the key
is absent it is inserted, bound to a null pointer. -/
def Index.subscript (idx : Index) (key : String) : Index × Option postings :=
  match StdMap.find? idx key with
  | none => (StdMap.set idx key none, none)
  | some p => (idx, p)

/-- The lookup written under `#if defined(ART) ... #elif defined(RBT) ||
defined(HASH)`, returning the index as it is after the lookup. -/
def Index.lookup (b : Backend) (idx : Index) (key : String) : Index × Option postings :=
  match b with
  | Backend.ART => (idx, Index.get idx key)
  | _ => Index.subscript idx key

/-! ## The database -/

/-- The member `docIDs_`: a plain counter, or in the `CHECK` build the vector
of the paths of the ingested documents. -/
inductive DocIDs
  | count (n : Nat)
  | paths (v : List String)
  deriving DecidableEq, Repr

/-- The class `Database`. The `std::set` of stop words is a list without
repetitions; its iteration order is never observed by the program. -/
structure Database where
  invert_index_ : Index
  docIDs_ : DocIDs
  stop_words_ : List String
  deriving DecidableEq, Repr

/-- A freshly constructed `Database`, for a build with or without `CHECK`. -/
def Database.fresh (check : Bool) : Database :=
  { invert_index_ := [],
    docIDs_ := if check then DocIDs.paths [] else DocIDs.count 0,
    stop_words_ := [] }

/-- Number of documents in the registry, as printed by `showInfo`. -/
def DocIDs.size : DocIDs → Nat
  | DocIDs.count n => n
  | DocIDs.paths v => v.length

/-- The id assignment of `readDoc`: `docIDs_.size()` followed by `push_back`
in the `CHECK` build, `docIDs_++` otherwise. Returns the id and the registry
after the assignment. -/
def DocIDs.assign (file : String) : DocIDs → Nat × DocIDs
  | DocIDs.count n => (n, DocIDs.count (n + 1))
  | DocIDs.paths v => (v.length, DocIDs.paths (v ++ [file]))

/-- The call `stop_words_.insert(str)`. -/
def setInsert (s : List String) (str : String) : List String :=
  if s.contains str then s else str :: s

/-- The first loop of `readDoc`: count every word that is neither empty nor a
stop word after `stemming`. -/
def countWords (E : Env) (stop_words_ : List String) :
    List String → StdMap Nat → StdMap Nat
  | [], word_count => word_count
  | str :: rest, word_count =>
    let word := stemming E str
    if word.isEmpty || stop_words_.contains word then
      countWords E stop_words_ rest word_count
    else countWords E stop_words_ rest (word_count.incr word)

/-- Body of the second loop of `readDoc` for one entry of `word_count`: append
to the posting list the lookup returned, or create the list when the lookup
returned a null pointer. -/
def insertPosting (b : Backend) (docID : Nat) (idx : Index) (word : String × Nat) : Index :=
  let r := Index.lookup b idx word.1
  match r.2 with
  | some posting => StdMap.set r.1 word.1 (some (posting ++ [(docID, word.2)]))
  | none => StdMap.set r.1 word.1 (some [(docID, word.2)])

/-- The method `Database::readDoc`. -/
def Database.readDoc (E : Env) (fs : FS) (db : Database) (file : String) : Database :=
  match fs file with
  | none => db
  | some content =>
    let a := DocIDs.assign file db.docIDs_
    let word_count := countWords E db.stop_words_ (tokens content) []
    { invert_index_ := word_count.foldl (insertPosting E.backend a.1) db.invert_index_,
      docIDs_ := a.2,
      stop_words_ := db.stop_words_ }

/-- The method `Database::readStopWord`. -/
def Database.readStopWord (fs : FS) (db : Database) (file : String) : Database :=
  match fs file with
  | none => db
  | some content => { db with stop_words_ := (tokens content).foldl setInsert db.stop_words_ }

/-- The method `Database::readDocList`. -/
def Database.readDocList (E : Env) (fs : FS) (db : Database) (filelist : String) : Database :=
  match fs filelist with
  | none => db
  | some content => (tokens content).foldl (Database.readDoc E fs) db

/-! ## Output -/

/-- The lines the program writes to its output stream. -/
inductive Line
  /-- The text `[queryWord] Querying ` followed by the word as given. -/
  | querying (word : String)
  /-- The text `[queryWord] Can't Query Stop Word: ` followed by the word. -/
  | stopWord (word : String)
  /-- The text `[queryWord] Word Not Found: ` followed by the word. -/
  | notFound (word : String)
  /-- One posting: document id, a blank, count. -/
  | posting (doc : Nat) (count : Nat)
  /-- The text `[queryWord] Check Failed: ` followed by the word. -/
  | checkFailed (word : String)
  /-- The text `[queryWord] Check Passed: ` followed by the word. -/
  | checkPassed (word : String)
  /-- The text `[Info] Documents: ` followed by the number. -/
  | infoDocuments (n : Nat)
  /-- The text `[Info] Stop Words: ` followed by the number. -/
  | infoStopWords (n : Nat)
  /-- An empty line. -/
  | blank
  /-- The text `[Info] Terms: `. -/
  | termsHeader
  /-- One term of the index. -/
  | term (t : String)
  /-- The text `[Info] Terms Count: ` followed by the number. -/
  | termsCount (n : Nat)
  deriving DecidableEq, Repr

/-- A `std::ostream`: whether it is in a good state, and what was written.
A stream that is not good drops what is written to it. -/
structure OStream where
  good : Bool
  lines : List Line
  deriving DecidableEq, Repr

/-- The operation `out << ... << std::endl` for one line. -/
def OStream.put (out : OStream) (l : Line) : OStream :=
  if out.good then { out with lines := out.lines ++ [l] } else out

/-- The standard output at program start. -/
def OStream.cout : OStream :=
  { good := true, lines := [] }

/-- The printing loop of `queryWord`:
`for (doc : *posting) { if (topnum-- == 0) break; out << ...; }`. -/
def printPostings : postings → Int → OStream → OStream
  | [], _, out => out
  | doc :: rest, topnum, out =>
    if topnum = 0 then out
    else printPostings rest (topnum - 1) (out.put (Line.posting doc.1 doc.2))

/-- The inner loop of `checkQueryWord`: the number of words of the stream
whose `stemming` is the word. -/
def recount (E : Env) (word : String) : List String → Nat → Nat
  | [], count => count
  | str :: rest, count =>
    if stemming E str = word then recount E word rest (count + 1)
    else recount E word rest count

/-- The method `Database::checkQueryWord` of the `CHECK` build. An id outside
`docIDs_` (undefined behaviour in the source) counts as an unreadable file. -/
def checkQueryWord (E : Env) (fs : FS) (docIDs_ : List String) (word : String) :
    postings → Bool
  | [] => true
  | doc :: rest =>
    match docIDs_[doc.1]? with
    | none => false
    | some file =>
      match fs file with
      | none => false
      | some content =>
        if recount E word (tokens content) 0 ≠ doc.2 then false
        else checkQueryWord E fs docIDs_ word rest

/-- The `#ifdef CHECK` tail of `queryWord`. -/
def checkTail (E : Env) (fs : FS) (docIDs_ : DocIDs) (word : String) (posting : postings)
    (out : OStream) : OStream :=
  match docIDs_ with
  | DocIDs.count _ => out
  | DocIDs.paths v =>
    if checkQueryWord E fs v word posting then out.put (Line.checkPassed word)
    else out.put (Line.checkFailed word)

/-- The method `Database::queryWord`, returning the database and the stream
after the call. -/
def Database.queryWord (E : Env) (fs : FS) (db : Database) (word : String) (topnum : Int)
    (out : OStream) : Database × OStream :=
  let out := out.put (Line.querying word)
  let word := stemming E word
  if db.stop_words_.contains word then (db, out.put (Line.stopWord word))
  else
    let r := Index.lookup E.backend db.invert_index_ word
    let db := { db with invert_index_ := r.1 }
    match r.2 with
    | none => (db, out.put (Line.notFound word))
    | some posting =>
      if !out.good then (db, out)
      else
        let out := if E.noOutput then out else printPostings posting topnum out
        (db, checkTail E fs db.docIDs_ word posting out)

/-- The method `Database::queryList`. -/
def Database.queryList (E : Env) (fs : FS) (db : Database) (wordfile : String) (topnum : Int)
    (out : OStream) : Database × OStream :=
  match fs wordfile with
  | none => (db, out)
  | some content =>
    (tokens content).foldl (fun s word => Database.queryWord E fs s.1 word topnum s.2) (db, out)

/-- The comparator of `Database::sort`: `a.second > b.second`. -/
def byCount (a b : Posting) : Bool :=
  decide (a.2 > b.2)

/-- The loop of `Database::sort` over the entries of the index. Reaching an
entry bound to a null pointer dereferences it: the run is lost (`none`). -/
def sortEntries (S : StdSort) : Index → Option Index
  | [] => some []
  | (_, none) :: _ => none
  | (k, some posting) :: rest =>
    (sortEntries S rest).map (fun r => (k, some (S.sort byCount posting)) :: r)

/-- The method `Database::sort`. -/
def Database.sort (E : Env) (db : Database) : Option Database :=
  (sortEntries E.stdsort db.invert_index_).map (fun idx => { db with invert_index_ := idx })

/-- The method `Database::showInfo`. -/
def Database.showInfo (db : Database) (out : OStream) : OStream :=
  ((out.put (Line.infoDocuments db.docIDs_.size)).put
    (Line.infoStopWords db.stop_words_.length)).put Line.blank

/-- The loop of `Database::showTerms`: one line per entry, counted in an
`unsigned int`. -/
def showTermsLoop : Index → OStream → Nat → OStream × Nat
  | [], out, count => (out, count)
  | e :: rest, out, count =>
    showTermsLoop rest (out.put (Line.term e.1)) ((count + 1) % 2 ^ 32)

/-- The method `Database::showTerms`. -/
def Database.showTerms (db : Database) (out : OStream) : OStream :=
  let r := showTermsLoop db.invert_index_ (out.put Line.termsHeader) 0
  r.1.put (Line.termsCount r.2)

/-! ## Calls and runs -/

/-- The calls the dispatcher in `main` makes on the database. -/
inductive Cmd
  | readDoc (file : String)
  | readDocList (filelist : String)
  | readStopWord (file : String)
  | queryWord (word : String) (topnum : Int)
  | queryList (wordfile : String) (topnum : Int)
  | sort
  | showInfo
  | showTerms
  deriving DecidableEq, Repr

/-- The database together with the standard output. -/
structure State where
  db : Database
  out : OStream
  deriving DecidableEq, Repr

/-- The program state at start. -/
def State.fresh (check : Bool) : State :=
  { db := Database.fresh check, out := OStream.cout }

/-- One call, made while the file system is `fs`. The result is `none` when
the call dereferences a null pointer. -/
def exec (E : Env) (fs : FS) (s : State) : Cmd → Option State
  | Cmd.readDoc file => some { s with db := s.db.readDoc E fs file }
  | Cmd.readDocList filelist => some { s with db := s.db.readDocList E fs filelist }
  | Cmd.readStopWord file => some { s with db := s.db.readStopWord fs file }
  | Cmd.queryWord word topnum =>
    let r := s.db.queryWord E fs word topnum s.out
    some { db := r.1, out := r.2 }
  | Cmd.queryList wordfile topnum =>
    let r := s.db.queryList E fs wordfile topnum s.out
    some { db := r.1, out := r.2 }
  | Cmd.sort => (s.db.sort E).map (fun db => { s with db := db })
  | Cmd.showInfo => some { s with out := s.db.showInfo s.out }
  | Cmd.showTerms => some { s with out := s.db.showTerms s.out }

/-- A sequence of calls, each paired with the file system it sees. -/
def run (E : Env) : List (FS × Cmd) → State → Option State
  | [], s => some s
  | (fs, c) :: rest, s =>
    match exec E fs s c with
    | none => none
    | some s1 => run E rest s1

/-- What is known of one successful `readDoc` call: the path, the words read
from the file and the stop words at that moment. -/
structure Ingest where
  path : String
  words : List String
  stops : List String
  deriving DecidableEq, Repr

/-- The record of a `readDoc` call made in database state `db`; empty when the
file cannot be opened. -/
def ingestOf (fs : FS) (db : Database) (file : String) : List Ingest :=
  match fs file with
  | none => []
  | some content => [{ path := file, words := tokens content, stops := db.stop_words_ }]

/-- The records of the `readDoc` calls one call gives rise to, in order. A
`readDoc` call leaves the stop words as they are, so all the calls of one
`readDocList` see the stop words of `db`. -/
def ingestsOf (fs : FS) (db : Database) : Cmd → List Ingest
  | Cmd.readDoc file => ingestOf fs db file
  | Cmd.readDocList filelist =>
    match fs filelist with
    | none => []
    | some content => (tokens content).flatMap (ingestOf fs db)
  | _ => []

/-- The successful `readDoc` calls of a run, in the order they were made. -/
def history (E : Env) : List (FS × Cmd) → State → List Ingest
  | [], _ => []
  | (fs, c) :: rest, s =>
    ingestsOf fs s.db c ++
      (match exec E fs s c with
       | none => []
       | some s1 => history E rest s1)

/-- The posting list of a term, empty when the term has no entry or a null
one. -/
def Database.postingsOf (db : Database) (t : String) : postings :=
  (Index.get db.invert_index_ t).getD []

/-! ## Concrete collaborators, for evaluating the model -/

/-- A stand-in for the `trim` of the library, used only where the model is
evaluated at concrete inputs: it keeps lower-case letters and apostrophes. -/
def keepLetters (str : String) : String :=
  String.mk (str.data.filter (fun c => (97 ≤ c.toNat && c.toNat ≤ 122) || c.toNat == 39))

/-- A stemmer to evaluate the model with: `keepLetters` as `trim`, and no
suffix stripping (the builds below set `NO_STEMMING`, so `stem` is not
reached). -/
def plainStemmer : Porter2Stemmer :=
  { trim := keepLetters, stem := fun str => str }

/-- The order "not less than an earlier element" a sorted range satisfies. -/
def notBefore (comp : Posting → Posting → Bool) (a b : Posting) : Prop :=
  comp b a = false

instance (comp : Posting → Posting → Bool) : DecidableRel (notBefore comp) :=
  fun a b => inferInstanceAs (Decidable (comp b a = false))

/-- A `std::sort` that keeps equivalent elements in their order: insertion
sort, which is what `std::sort` of libstdc++ runs on short ranges. -/
def stableSort : StdSort where
  sort := fun comp l => List.insertionSort (notBefore comp) l
  perm := fun comp l => List.perm_insertionSort (notBefore comp) l
  sorted := fun comp l h => by
    haveI : IsTotal Posting (notBefore comp) := ⟨fun a b => by
      unfold notBefore
      cases hba : comp b a
      · exact Or.inl rfl
      · right
        cases hab : comp a b
        · rfl
        · have := h.trans a b a hab hba
          rw [h.irrefl a] at this
          cases this⟩
    haveI : IsTrans Posting (notBefore comp) := ⟨fun a b c hab hbc => by
      unfold notBefore at *
      cases hca : comp c a
      · rfl
      · cases h1 : comp a b
        · cases h2 : comp b c
          · have := (h.equiv_trans a b c h1 hab h2 hbc).2
            rw [hca] at this
            cases this
          · have := h.trans b c a h2 hca
            rw [hab] at this
            cases this
        · have := h.trans c a b hca h1
          rw [hbc] at this
          cases this⟩
    exact List.sorted_insertionSort (notBefore comp) l

/-- The call `std::iter_swap` on two positions of the range. -/
def iterSwap (v : postings) (i j : Nat) : postings :=
  match v[i]?, v[j]? with
  | some a, some b => (v.set i b).set j a
  | _, _ => v

/-- The test `comp(*i, *j)` on two positions of the range. -/
def compAt (comp : Posting → Posting → Bool) (v : postings) (i j : Nat) : Bool :=
  match v[i]?, v[j]? with
  | some a, some b => comp a b
  | _, _ => false

/-- The routine `__move_median_to_first` of libstdc++ (`bits/stl_algo.h`):
the median of the elements at `a`, `b`, `c` is swapped to `result`. -/
def moveMedianToFirst (comp : Posting → Posting → Bool) (v : postings)
    (result a b c : Nat) : postings :=
  if compAt comp v a b then
    if compAt comp v b c then iterSwap v result b
    else if compAt comp v a c then iterSwap v result c
    else iterSwap v result a
  else if compAt comp v a c then iterSwap v result a
  else if compAt comp v b c then iterSwap v result c
  else iterSwap v result b

/-- The loop `while (comp(first, pivot)) ++first` of `__unguarded_partition`. -/
def scanUp (comp : Posting → Posting → Bool) (v : postings) (pivot : Nat) : Nat → Nat → Nat
  | 0, first => first
  | fuel + 1, first =>
    if compAt comp v first pivot then scanUp comp v pivot fuel (first + 1) else first

/-- The loop `while (comp(pivot, last)) --last` of `__unguarded_partition`. -/
def scanDown (comp : Posting → Posting → Bool) (v : postings) (pivot : Nat) : Nat → Nat → Nat
  | 0, last => last
  | fuel + 1, last =>
    if compAt comp v pivot last then scanDown comp v pivot fuel (last - 1) else last

/-- The routine `__unguarded_partition` of libstdc++; the first argument
bounds the number of rounds, each of which moves `first` up. -/
def unguardedPartition (comp : Posting → Posting → Bool) :
    Nat → postings → Nat → Nat → Nat → postings × Nat
  | 0, v, first, _, _ => (v, first)
  | fuel + 1, v, first, last, pivot =>
    let first1 := scanUp comp v pivot v.length first
    let last1 := scanDown comp v pivot v.length (last - 1)
    if first1 < last1 then
      unguardedPartition comp fuel (iterSwap v first1 last1) (first1 + 1) last1 pivot
    else (v, first1)

/-- The routine `__unguarded_partition_pivot` of libstdc++. -/
def unguardedPartitionPivot (comp : Posting → Posting → Bool) (v : postings)
    (first last : Nat) : postings × Nat :=
  let mid := first + (last - first) / 2
  unguardedPartition comp v.length
    (moveMedianToFirst comp v first (first + 1) mid (last - 1)) (first + 1) last first

/-- The routine `__introsort_loop` of libstdc++, with `_S_threshold = 16`: a
range of more than 16 elements is partitioned, the upper part handled by a
recursive call and the lower part by the next round of the loop. The first
argument is the depth limit. When it is used up on a range of more than 16
elements libstdc++ switches to heap sort, which is not modelled: the result is
`none`. -/
def introsortLoop (comp : Posting → Posting → Bool) :
    Nat → postings → Nat → Nat → Option postings
  | 0, v, first, last => if last - first > 16 then none else some v
  | depth + 1, v, first, last =>
    if last - first > 16 then
      match introsortLoop comp depth
          (unguardedPartitionPivot comp v first last).1
          (unguardedPartitionPivot comp v first last).2 last with
      | none => none
      | some v1 => introsortLoop comp depth v1 first (unguardedPartitionPivot comp v first last).2
    else some v

/-- The function `std::__lg`: the binary logarithm rounded down, the first
argument bounding the number of halvings. -/
def lgAux : Nat → Nat → Nat
  | 0, _ => 0
  | fuel + 1, n => if n ≤ 1 then 0 else lgAux fuel (n / 2) + 1

/-- The routine `std::__sort` of libstdc++: `__introsort_loop` with depth
limit `2 * __lg(n)`, then `__final_insertion_sort`, an insertion sort of the
whole range (its split at 16 into a guarded and an unguarded part changes the
cost, not the result). Where the heap sort branch would be taken the insertion
sort alone stands in. -/
def gnuSortFn (comp : Posting → Posting → Bool) (l : postings) : postings :=
  match introsortLoop comp (2 * lgAux l.length l.length) l 0 l.length with
  | some v => stableSort.sort comp v
  | none => stableSort.sort comp l

/-- The `std::sort` of libstdc++ as a `StdSort`: it rearranges (the loop only
swaps elements) and sorts (the last pass is an insertion sort). -/
def gnuSort : StdSort where
  sort := gnuSortFn
  perm := fun comp l => by
    have hset : ∀ (v : postings) (i : Nat) (b : Posting), i < v.length →
        (v.set i b).Perm (b :: v.eraseIdx i) := by
      intro v
      induction v with
      | nil => intro i b h; simp at h
      | cons x t ih =>
        intro i b h
        cases i with
        | zero => exact List.Perm.refl _
        | succ k =>
          have hk : k < t.length := by simpa using h
          exact ((ih k b hk).cons x).trans (List.Perm.swap b x _)
    have hget : ∀ (v : postings) (i : Nat) (h : i < v.length),
        v.Perm (v[i] :: v.eraseIdx i) := by
      intro v
      induction v with
      | nil => intro i h; simp at h
      | cons x t ih =>
        intro i h
        cases i with
        | zero => exact List.Perm.refl _
        | succ k =>
          have hk : k < t.length := by simpa using h
          exact ((ih k hk).cons x).trans (List.Perm.swap _ x _)
    have hswap : ∀ (v : postings) (i j : Nat), (iterSwap v i j).Perm v := by
      intro v i j
      unfold iterSwap
      cases hi : v[i]? with
      | none => exact List.Perm.refl _
      | some a =>
        cases hj : v[j]? with
        | none => exact List.Perm.refl _
        | some b =>
          simp only
          obtain ⟨hi1, rfl⟩ := List.getElem?_eq_some.1 hi
          obtain ⟨hj1, rfl⟩ := List.getElem?_eq_some.1 hj
          have hj2 : j < (v.set i v[j]).length := by simpa using hj1
          have hat : (v.set i v[j])[j] = v[j] := by
            by_cases hij : i = j
            · subst hij; simp
            · rw [List.getElem_set_ne hij]
          have p1 := hset (v.set i v[j]) j v[i] hj2
          have p2 := hget (v.set i v[j]) j hj2
          rw [hat] at p2
          have p3 := hset v i v[j] hi1
          have p4 := hget v i hi1
          have p5 : ((v.set i v[j]).eraseIdx j).Perm (v.eraseIdx i) :=
            (List.perm_cons _).1 (p2.symm.trans p3)
          exact (p1.trans (p5.cons _)).trans p4.symm
    have hmedian : ∀ (v : postings) (r a b c : Nat),
        (moveMedianToFirst comp v r a b c).Perm v := by
      intro v r a b c
      unfold moveMedianToFirst
      split_ifs <;> exact hswap _ _ _
    have hpart : ∀ (fuel : Nat) (v : postings) (first last pivot : Nat),
        (unguardedPartition comp fuel v first last pivot).1.Perm v := by
      intro fuel
      induction fuel with
      | zero => intro v first last pivot; exact List.Perm.refl _
      | succ n ih =>
        intro v first last pivot
        simp only [unguardedPartition]
        split
        · exact (ih _ _ _ _).trans (hswap _ _ _)
        · exact List.Perm.refl _
    have hloop : ∀ (depth : Nat) (v : postings) (first last : Nat) (v1 : postings),
        introsortLoop comp depth v first last = some v1 → v1.Perm v := by
      intro depth
      induction depth with
      | zero =>
        intro v first last v1 h
        simp only [introsortLoop] at h
        split at h
        · cases h
        · cases h; exact List.Perm.refl _
      | succ n ih =>
        intro v first last v1 h
        simp only [introsortLoop] at h
        split at h
        · have hp : (unguardedPartitionPivot comp v first last).1.Perm v :=
            (hpart _ _ _ _ _).trans (hmedian _ _ _ _ _)
          split at h
          · cases h
          · rename_i v2 h2
            exact ((ih _ _ _ _ h).trans (ih _ _ _ _ h2)).trans hp
        · cases h; exact List.Perm.refl _
    show (gnuSortFn comp l).Perm l
    unfold gnuSortFn
    split
    · rename_i v hv
      exact (stableSort.perm comp v).trans (hloop _ _ _ _ _ hv)
    · exact stableSort.perm comp l
  sorted := fun comp l h => by
    show (gnuSortFn comp l).Pairwise (fun a b => comp b a = false)
    unfold gnuSortFn
    split
    · exact stableSort.sorted comp _ h
    · exact stableSort.sorted comp _ h

/-- An `RBT` build with `NO_STEMMING`, printing postings, with the plain
stemmer and the stable sort. -/
def rbtEnv : Env :=
  { backend := Backend.RBT, noStemming := true, noOutput := false,
    porter := plainStemmer, stdsort := stableSort }

/-- The `ART` build with the same collaborators. -/
def artEnv : Env :=
  { rbtEnv with backend := Backend.ART }

/-- The `HASH` build with the same collaborators. -/
def hashEnv : Env :=
  { rbtEnv with backend := Backend.HASH }

/-- The `RBT` build with the `std::sort` of libstdc++. -/
def gnuEnv : Env :=
  { rbtEnv with stdsort := gnuSort }

/-- A stand-in for the `stem` of the library, used only where the model is
evaluated at the words `agreed` and `agre`: a final `eed` becomes `ee`, then a
final `e` is dropped; words of at most two letters are left alone. On these
two words Porter2 gives the same (`agre` and `agr`). -/
def dropFinalE (str : String) : String :=
  if str.length ≤ 2 then str
  else
    match (match str.data.reverse with
      | 'd' :: 'e' :: 'e' :: rest => 'e' :: 'e' :: rest
      | cs => cs) with
    | 'e' :: rest => String.mk rest.reverse
    | cs => String.mk cs.reverse

/-- An `RBT` build in which `stem` is applied. -/
def stemEnv : Env :=
  { backend := Backend.RBT, noStemming := false, noOutput := false,
    porter := { trim := keepLetters, stem := dropFinalE }, stdsort := stableSort }

/-- A file system: the document of the round-trip scenario, a document
without any letter, a second document, and two stop-word files. -/
def catFS : FS := fun path =>
  if path = "doc" then some "The cat sat on the mat. The cat ran."
  else if path = "digits" then some "12 34"
  else if path = "doc2" then some "A cat on a mat."
  else if path = "stop" then some "cat"
  else if path = "Stop" then some "The"
  else none

/-- Calls: a file that cannot be opened, a document without indexable words,
the scenario document, and then a stop-word file naming an indexed word. -/
def catCalls : List (FS × Cmd) :=
  [(catFS, Cmd.readDoc "missing"), (catFS, Cmd.readDoc "digits"), (catFS, Cmd.readDoc "doc"),
   (catFS, Cmd.readStopWord "stop")]

/-- The state `catCalls` leads to in the `RBT` build with `CHECK`. -/
def catState : State :=
  (run rbtEnv catCalls (State.fresh true)).getD (State.fresh true)

/-- The `CHECK` database holding the two documents `doc` and `doc2`. -/
def twoDocs : Database :=
  ((Database.fresh true).readDoc rbtEnv catFS "doc").readDoc rbtEnv catFS "doc2"

/-- Calls: read the two documents, then sort. -/
def tieCalls : List (FS × Cmd) :=
  [(catFS, Cmd.readDoc "doc"), (catFS, Cmd.readDoc "doc2"), (catFS, Cmd.sort)]

/-- A database with one posting list, in ingestion order. -/
def sortDb : Database :=
  { invert_index_ := [("cat", some [(0, 1), (1, 5), (2, 5)])],
    docIDs_ := DocIDs.count 3, stop_words_ := [] }

/-- A file system with seventeen documents `a` to `q`, each holding the one
word `cat`, the file `list` naming them, and a document holding `agreed`. -/
def seventeenFS : FS := fun path =>
  if path = "list" then some "a b c d e f g h i j k l m n o p q"
  else if path = "agreed" then some "agreed"
  else if path.length = 1 then some "cat"
  else none

/-- Calls: read the seventeen documents, then sort. -/
def seventeenCalls : List (FS × Cmd) :=
  [(seventeenFS, Cmd.readDocList "list"), (seventeenFS, Cmd.sort)]

/-! ## Vocabulary of the statements -/

/-- Keys strictly ascending: the representation invariant of `StdMap`. -/
def StdMap.Ordered {β : Type} (m : StdMap β) : Prop :=
  m.Pairwise (fun a b => strLess a.1 b.1 = true)

/-- The number of words of a document whose `stemming` is the term `t`. -/
def occurrences (E : Env) (t : String) (words : List String) : Nat :=
  words.countP (fun str => decide (stemming E str = t))

/-- The count `readDoc` arrives at for the term `t`: nothing for the empty
word and for a stop word, the number of occurrences otherwise. -/
def kept (E : Env) (stops : List String) (t : String) (words : List String) : Nat :=
  if t.isEmpty || stops.contains t then 0 else occurrences E t words

/-- The lines written between two states of a stream. -/
def written (before after : OStream) : List Line :=
  after.lines.drop before.lines.length

/-- The registry after the successful `readDoc` calls of `log`. -/
def registry (check : Bool) (log : List Ingest) : DocIDs :=
  if check then DocIDs.paths (log.map Ingest.path) else DocIDs.count log.length

/-- What the database holds after the successful `readDoc` calls of `log`:
the registry lists them, and a posting `(d, c)` is stored for `t` exactly
when the call numbered `d` counted `c ≥ 1` occurrences of `t`, which was then
neither empty nor a stop word. -/
def Inv (E : Env) (check : Bool) (db : Database) (log : List Ingest) : Prop :=
  db.docIDs_ = registry check log ∧
  ∀ (t : String) (d c : Nat), (d, c) ∈ db.postingsOf t ↔
    ∃ r, log[d]? = some r ∧ t ≠ "" ∧ t ∉ r.stops ∧ c = occurrences E t r.words ∧ 1 ≤ c

/-- The shape of the posting lists: the index keeps its keys in order (the
representation invariant of `std::map`), and the posting list of every term
holds at most one posting per document id, only ids below the document count
and only counts of at least one. -/
def WellFormed (db : Database) : Prop :=
  StdMap.Ordered db.invert_index_ ∧
  ∀ t, ((db.postingsOf t).map Prod.fst).Nodup ∧
    ∀ p ∈ db.postingsOf t, p.1 < db.docIDs_.size ∧ 1 ≤ p.2

/-- Document ids strictly increasing along the posting list of every term. -/
def Ascending (db : Database) : Prop :=
  ∀ t, ((db.postingsOf t).map Prod.fst).Pairwise (fun a b => a < b)

/-- The database and the stream after `n` calls `queryWord(word, topnum)` in a
row on the same stream. -/
def queryRow (E : Env) (fs : FS) (word : String) (topnum : Int) :
    Nat → Database × OStream → Database × OStream
  | 0, s => s
  | n + 1, s =>
    (queryRow E fs word topnum n s).1.queryWord E fs word topnum
      (queryRow E fs word topnum n s).2

/-- Two databases a query cannot tell apart: same stop words, same registry,
and the same posting list (or none) for every term. -/
def Agree (db1 db2 : Database) : Prop :=
  db1.stop_words_ = db2.stop_words_ ∧ db1.docIDs_ = db2.docIDs_ ∧
    ∀ t, Index.get db1.invert_index_ t = Index.get db2.invert_index_ t

/-- Two streams in the same state that hold the same lines after the first
`b1` and `b2` lines respectively. -/
def SameSince (b1 b2 : List Line) (o1 o2 : OStream) : Prop :=
  o1.good = o2.good ∧ ∃ x, o1.lines = b1 ++ x ∧ o2.lines = b2 ++ x

/-- Calls: a query for a word that is not in the index, then a sort. -/
def zebraCalls : List (FS × Cmd) :=
  [(catFS, Cmd.readDoc "doc"), (catFS, Cmd.queryWord "zebra" (-1)), (catFS, Cmd.sort)]

/-- Every key of the index is bound to a posting list that exists and is not
empty. -/
def NoNull (idx : Index) : Prop :=
  ∀ e ∈ idx, ∃ L, e.2 = some L ∧ L ≠ []

/-- Any two postings of the list with equal count stand in ascending id
order. -/
def TiesById (L : postings) : Prop :=
  L.Pairwise (fun a b => a.2 = b.2 → a.1 < b.1)

/-- Every posting list of at most 16 postings has its ties in ascending id
order. -/
def ShortTies (db : Database) : Prop :=
  ∀ t, (db.postingsOf t).length ≤ 16 → TiesById (db.postingsOf t)

/-! ## Order and map lemmas -/

theorem char_eq_of_toNat_eq {a b : Char} (h : a.toNat = b.toNat) : a = b := by
  apply Char.ext
  apply UInt32.ext
  exact h

theorem ltChars_irrefl (a : List Char) : ltChars a a = false := by
  induction a with
  | nil => rfl
  | cons c cs ih => simp [ltChars, ih]

theorem ltChars_trans : ∀ (a b c : List Char),
    ltChars a b = true → ltChars b c = true → ltChars a c = true
  | _, [], _, h, _ => by simp [ltChars] at h
  | _, _ :: _, [], _, h => by simp [ltChars] at h
  | [], _ :: _, _ :: _, _, _ => by simp [ltChars]
  | x :: xs, y :: ys, z :: zs, h1, h2 => by
    simp only [ltChars, Bool.or_eq_true, Bool.and_eq_true, decide_eq_true_eq, beq_iff_eq] at h1 h2 ⊢
    rcases h1 with h1 | ⟨e1, h1⟩
    · rcases h2 with h2 | ⟨e2, _⟩
      · left; omega
      · left; omega
    · rcases h2 with h2 | ⟨e2, h2⟩
      · left; omega
      · right; exact ⟨by omega, ltChars_trans xs ys zs h1 h2⟩

theorem ltChars_total : ∀ (a b : List Char),
    ltChars a b = false → a ≠ b → ltChars b a = true
  | [], [], _, h => absurd rfl h
  | [], _ :: _, h, _ => by simp [ltChars] at h
  | _ :: _, [], _, _ => by simp [ltChars]
  | x :: xs, y :: ys, h1, h2 => by
    simp only [ltChars, Bool.or_eq_false_iff, Bool.and_eq_false_imp, decide_eq_false_iff_not,
      beq_iff_eq] at h1
    simp only [ltChars, Bool.or_eq_true, Bool.and_eq_true, decide_eq_true_eq, beq_iff_eq]
    by_cases e : y.toNat = x.toNat
    · right
      refine ⟨e, ltChars_total xs ys (h1.2 e.symm) ?_⟩
      intro hx
      apply h2
      rw [hx, char_eq_of_toNat_eq e]
    · left; omega

theorem strLess_irrefl (a : String) : strLess a a = false :=
  ltChars_irrefl a.data

theorem strLess_trans {a b c : String} (h1 : strLess a b = true) (h2 : strLess b c = true) :
    strLess a c = true :=
  ltChars_trans _ _ _ h1 h2

theorem strLess_total {a b : String} (h1 : strLess a b = false) (h2 : a ≠ b) :
    strLess b a = true :=
  ltChars_total _ _ h1 (fun h => h2 (String.ext h))

theorem strLess_ne {a b : String} (h : strLess a b = true) : a ≠ b := by
  rintro rfl
  rw [strLess_irrefl] at h
  cases h

theorem StdMap.find?_set {β : Type} (m : StdMap β) (key : String) (val : β) (t : String) :
    StdMap.find? (StdMap.set m key val) t = if t = key then some val else StdMap.find? m t := by
  induction m with
  | nil => simp [StdMap.set, StdMap.find?]
  | cons e rest ih =>
    obtain ⟨k, v⟩ := e
    simp only [StdMap.set]
    split
    · simp [StdMap.find?]
    · split
      · rename_i h
        subst h
        simp only [StdMap.find?]
        split <;> rfl
      · rename_i h
        simp only [StdMap.find?, ih]
        by_cases h1 : t = k
        · subst h1
          rw [if_pos rfl, if_neg (Ne.symm h), if_pos rfl]
        · simp [h1]

theorem StdMap.mem_set {β : Type} (m : StdMap β) (key : String) (val : β) (e : String × β)
    (h : e ∈ StdMap.set m key val) : e = (key, val) ∨ e ∈ m := by
  induction m with
  | nil => simpa [StdMap.set] using h
  | cons x rest ih =>
    obtain ⟨k, v⟩ := x
    simp only [StdMap.set] at h
    split at h
    · simpa using h
    · split at h
      · simp only [List.mem_cons] at h ⊢
        rcases h with h | h
        · exact Or.inl h
        · exact Or.inr (Or.inr h)
      · simp only [List.mem_cons] at h ⊢
        rcases h with h | h
        · exact Or.inr (Or.inl h)
        · rcases ih h with h | h
          · exact Or.inl h
          · exact Or.inr (Or.inr h)

theorem StdMap.ordered_set {β : Type} (m : StdMap β) (key : String) (val : β)
    (h : StdMap.Ordered m) : StdMap.Ordered (StdMap.set m key val) := by
  induction m with
  | nil => simp [StdMap.set, StdMap.Ordered]
  | cons x rest ih =>
    obtain ⟨k, v⟩ := x
    unfold StdMap.Ordered at h ih ⊢
    rw [List.pairwise_cons] at h
    simp only [StdMap.set]
    split
    · rename_i hlt
      rw [List.pairwise_cons]
      refine ⟨?_, List.pairwise_cons.2 h⟩
      intro b hb
      rcases List.mem_cons.1 hb with rfl | hb
      · exact hlt
      · exact strLess_trans hlt (h.1 b hb)
    · split
      · rename_i hlt heq
        subst heq
        exact List.pairwise_cons.2 h
      · rename_i hlt hne
        have hlt : strLess key k = false := by simpa using hlt
        rw [List.pairwise_cons]
        refine ⟨?_, ih h.2⟩
        intro b hb
        rcases StdMap.mem_set rest key val b hb with rfl | hb
        · exact strLess_total hlt hne
        · exact h.1 b hb

theorem StdMap.find?_eq_none_of_ordered {β : Type} (k : String) (v : β) (rest : StdMap β)
    (h : StdMap.Ordered ((k, v) :: rest)) : StdMap.find? rest k = none := by
  unfold StdMap.Ordered at h
  rw [List.pairwise_cons] at h
  have h1 := h.1
  clear h
  induction rest with
  | nil => rfl
  | cons e rest ih =>
    obtain ⟨k1, v1⟩ := e
    simp only [StdMap.find?]
    have := strLess_ne (h1 (k1, v1) (List.mem_cons_self _ _))
    simp only [this, if_false]
    exact ih (fun b hb => h1 b (List.mem_cons_of_mem _ hb))

/-! ## The effect of `readDoc` on the index -/

theorem StdMap.find?_incr (m : StdMap Nat) (word t : String) :
    StdMap.find? (StdMap.incr m word) t =
      if t = word then some ((StdMap.find? m word).getD 0 + 1) else StdMap.find? m t := by
  unfold StdMap.incr
  cases h : StdMap.find? m word <;> simp [StdMap.find?_set]

theorem StdMap.ordered_incr (m : StdMap Nat) (word : String) (h : StdMap.Ordered m) :
    StdMap.Ordered (StdMap.incr m word) := by
  unfold StdMap.incr
  cases StdMap.find? m word <;> exact StdMap.ordered_set _ _ _ h

theorem kept_cons_skip (E : Env) (stops : List String) (t str : String) (rest : List String)
    (h : ((stemming E str).isEmpty || stops.contains (stemming E str)) = true) :
    kept E stops t (str :: rest) = kept E stops t rest := by
  unfold kept
  by_cases ht : (t.isEmpty || stops.contains t) = true
  · rw [if_pos ht, if_pos ht]
  · have hne : stemming E str ≠ t := by
      rintro rfl
      exact ht h
    rw [if_neg ht, if_neg ht]
    simp [occurrences, List.countP_cons, hne]

theorem kept_cons_other (E : Env) (stops : List String) (t str : String) (rest : List String)
    (h : t ≠ stemming E str) :
    kept E stops t (str :: rest) = kept E stops t rest := by
  unfold kept
  simp [occurrences, List.countP_cons, Ne.symm h]

theorem kept_cons_self (E : Env) (stops : List String) (str : String) (rest : List String)
    (h : ((stemming E str).isEmpty || stops.contains (stemming E str)) = false) :
    kept E stops (stemming E str) (str :: rest) = kept E stops (stemming E str) rest + 1 := by
  unfold kept
  have hn : ¬ ((stemming E str).isEmpty || stops.contains (stemming E str)) = true := by
    rw [h]; simp
  rw [if_neg hn, if_neg hn]
  simp [occurrences, List.countP_cons]

theorem find?_countWords (E : Env) (stops : List String) (t : String) (ws : List String) :
    ∀ m : StdMap Nat, StdMap.find? (countWords E stops ws m) t =
      if kept E stops t ws = 0 then StdMap.find? m t
      else some ((StdMap.find? m t).getD 0 + kept E stops t ws) := by
  induction ws with
  | nil => intro m; simp [countWords, kept, occurrences]
  | cons str rest ih =>
    intro m
    simp only [countWords]
    split
    · rename_i hskip
      rw [ih, kept_cons_skip E stops t str rest hskip]
    · rename_i hskip
      have hskip : ((stemming E str).isEmpty || stops.contains (stemming E str)) = false := by
        simpa using hskip
      rw [ih, StdMap.find?_incr]
      by_cases ht : t = stemming E str
      · subst ht
        rw [kept_cons_self E stops str rest hskip]
        simp only [if_true]
        split
        · rename_i h0
          simp [h0]
        · simp only [Option.getD_some, Nat.add_eq_zero, one_ne_zero, and_false, if_false]
          congr 1
          omega
      · rw [kept_cons_other E stops t str rest ht]
        simp [ht]

theorem ordered_countWords (E : Env) (stops : List String) (ws : List String) :
    ∀ m : StdMap Nat, StdMap.Ordered m → StdMap.Ordered (countWords E stops ws m) := by
  induction ws with
  | nil => intro m h; exact h
  | cons str rest ih =>
    intro m h
    simp only [countWords]
    split
    · exact ih m h
    · exact ih _ (StdMap.ordered_incr m _ h)

theorem Index.get_set (idx : Index) (key : String) (val : Option postings) (t : String) :
    Index.get (StdMap.set idx key val) t = if t = key then val else Index.get idx t := by
  unfold Index.get
  rw [StdMap.find?_set]
  split <;> rfl

theorem Index.get_lookup (b : Backend) (idx : Index) (key t : String) :
    Index.get (Index.lookup b idx key).1 t = Index.get idx t := by
  cases b <;> simp only [Index.lookup, Index.subscript]
  all_goals
    cases h : StdMap.find? idx key
    · simp only [Index.get_set]
      split
      · rename_i ht
        subst ht
        simp [Index.get, h]
      · rfl
    · rfl

theorem Index.lookup_snd (b : Backend) (idx : Index) (key : String) :
    (Index.lookup b idx key).2 = Index.get idx key := by
  cases b <;> simp only [Index.lookup, Index.subscript]
  all_goals
    cases h : StdMap.find? idx key <;> simp [Index.get, h]

theorem Index.get_insertPosting (b : Backend) (docID : Nat) (idx : Index) (word : String × Nat)
    (t : String) :
    Index.get (insertPosting b docID idx word) t =
      if t = word.1 then some ((Index.get idx word.1).getD [] ++ [(docID, word.2)])
      else Index.get idx t := by
  unfold insertPosting
  simp only [Index.lookup_snd]
  cases h : Index.get idx word.1 <;> simp only [Index.get_set, Index.get_lookup] <;> rfl

theorem Index.get_foldl_insertPosting (b : Backend) (docID : Nat) (t : String) :
    ∀ (es : StdMap Nat) (idx : Index), StdMap.Ordered es →
      Index.get (es.foldl (insertPosting b docID) idx) t =
        match StdMap.find? es t with
        | none => Index.get idx t
        | some n => some ((Index.get idx t).getD [] ++ [(docID, n)]) := by
  intro es
  induction es with
  | nil => intro idx _; rfl
  | cons e rest ih =>
    intro idx h
    obtain ⟨w, n⟩ := e
    have hnone := StdMap.find?_eq_none_of_ordered w n rest h
    have hrest : StdMap.Ordered rest := (List.pairwise_cons.1 h).2
    rw [List.foldl_cons, ih _ hrest]
    by_cases ht : t = w
    · subst ht
      simp [StdMap.find?, hnone, Index.get_insertPosting]
    · simp [StdMap.find?, ht, Index.get_insertPosting]

theorem postingsOf_readDoc (E : Env) (fs : FS) (db : Database) (file content : String)
    (t : String) (h : fs file = some content) :
    (db.readDoc E fs file).postingsOf t =
      db.postingsOf t ++
        (if kept E db.stop_words_ t (tokens content) = 0 then []
         else [((DocIDs.assign file db.docIDs_).1, kept E db.stop_words_ t (tokens content))]) := by
  unfold Database.postingsOf Database.readDoc
  simp only [h]
  rw [Index.get_foldl_insertPosting _ _ _ _ _
    (ordered_countWords E db.stop_words_ (tokens content) [] List.Pairwise.nil),
    find?_countWords]
  by_cases hk : kept E db.stop_words_ t (tokens content) = 0
  · simp [hk, StdMap.find?]
  · simp [hk, StdMap.find?]
/-! ## Preservation of the invariant -/

theorem contains_eq_true_iff (stops : List String) (t : String) :
    stops.contains t = true ↔ t ∈ stops := by
  simp

theorem kept_ne_zero_iff (E : Env) (stops : List String) (t : String) (words : List String)
    (c : Nat) :
    (kept E stops t words ≠ 0 ∧ c = kept E stops t words) ↔
      (t ≠ "" ∧ t ∉ stops ∧ c = occurrences E t words ∧ 1 ≤ c) := by
  unfold kept
  by_cases h : (t.isEmpty || stops.contains t) = true
  · rw [if_pos h]
    simp only [Bool.or_eq_true, String.isEmpty_iff, contains_eq_true_iff] at h
    constructor
    · rintro ⟨h0, _⟩; exact absurd rfl h0
    · rintro ⟨h1, h2, _⟩
      rcases h with h | h
      · exact absurd h h1
      · exact absurd h h2
  · rw [if_neg h]
    simp only [Bool.or_eq_true, String.isEmpty_iff, contains_eq_true_iff, not_or] at h
    constructor
    · rintro ⟨h0, hc⟩; exact ⟨h.1, h.2, hc, by omega⟩
    · rintro ⟨_, _, hc, h1⟩; exact ⟨by omega, hc⟩

theorem assign_registry (check : Bool) (log : List Ingest) (r : Ingest) :
    DocIDs.assign r.path (registry check log) = (log.length, registry check (log ++ [r])) := by
  cases check <;> simp [registry, DocIDs.assign]

theorem size_registry (check : Bool) (log : List Ingest) :
    (registry check log).size = log.length := by
  cases check <;> simp [registry, DocIDs.size]

theorem readDoc_none (E : Env) (fs : FS) (db : Database) (file : String) (h : fs file = none) :
    db.readDoc E fs file = db := by
  simp [Database.readDoc, h]

theorem readDoc_docIDs (E : Env) (fs : FS) (db : Database) (file content : String)
    (h : fs file = some content) :
    (db.readDoc E fs file).docIDs_ = (DocIDs.assign file db.docIDs_).2 := by
  simp [Database.readDoc, h]

theorem readDoc_stop_words (E : Env) (fs : FS) (db : Database) (file : String) :
    (db.readDoc E fs file).stop_words_ = db.stop_words_ := by
  unfold Database.readDoc
  cases fs file <;> rfl

theorem Inv_readDoc (E : Env) (check : Bool) (fs : FS) (db : Database) (log : List Ingest)
    (file : String) (h : Inv E check db log) :
    Inv E check (db.readDoc E fs file) (log ++ ingestOf fs db file) := by
  cases hf : fs file with
  | none => simpa [readDoc_none E fs db file hf, ingestOf, hf] using h
  | some content =>
    obtain ⟨hreg, hpost⟩ := h
    have ha := assign_registry check log
      { path := file, words := tokens content, stops := db.stop_words_ }
    simp only at ha
    refine ⟨?_, ?_⟩
    · rw [readDoc_docIDs E fs db file content hf, hreg, ha]
      simp [ingestOf, hf]
    · intro t d c
      rw [postingsOf_readDoc E fs db file content t hf, hreg, ha]
      simp only [ingestOf, hf, List.mem_append, hpost]
      constructor
      · rintro (⟨r, hr, rest⟩ | hnew)
        · refine ⟨r, ?_, rest⟩
          have hd : d < log.length := (List.getElem?_eq_some.1 hr).1
          rw [List.getElem?_append_left hd]
          exact hr
        · split at hnew
          · simp at hnew
          · rename_i hk
            simp only [List.mem_singleton, Prod.mk.injEq] at hnew
            obtain ⟨rfl, hc⟩ := hnew
            refine ⟨_, List.getElem?_concat_length _ _, ?_⟩
            exact (kept_ne_zero_iff E db.stop_words_ t (tokens content) c).1 ⟨hk, hc⟩
      · rintro ⟨r, hr, rest⟩
        by_cases hd : d < log.length
        · rw [List.getElem?_append_left hd] at hr
          exact Or.inl ⟨r, hr, rest⟩
        · right
          obtain ⟨hlen, _⟩ := List.getElem?_eq_some.1 hr
          simp only [List.length_append, List.length_singleton] at hlen
          have hd : d = log.length := by omega
          subst hd
          rw [List.getElem?_concat_length] at hr
          cases hr
          obtain ⟨hk, hc⟩ := (kept_ne_zero_iff E db.stop_words_ t (tokens content) c).2 rest
          rw [if_neg hk, hc]
          exact List.mem_singleton_self _

theorem ingestOf_congr (fs : FS) (db db1 : Database) (h : db1.stop_words_ = db.stop_words_) :
    ingestOf fs db1 = ingestOf fs db := by
  funext file
  simp [ingestOf, h]

theorem Inv_foldl_readDoc (E : Env) (check : Bool) (fs : FS) :
    ∀ (files : List String) (db : Database) (log : List Ingest), Inv E check db log →
      Inv E check (files.foldl (Database.readDoc E fs) db)
        (log ++ files.flatMap (ingestOf fs db)) := by
  intro files
  induction files with
  | nil => intro db log h; simpa using h
  | cons f rest ih =>
    intro db log h
    have h1 := ih (db.readDoc E fs f) _ (Inv_readDoc E check fs db log f h)
    rw [ingestOf_congr fs db _ (readDoc_stop_words E fs db f)] at h1
    simpa [List.flatMap_cons, List.append_assoc] using h1

theorem Inv_readDocList (E : Env) (check : Bool) (fs : FS) (db : Database) (log : List Ingest)
    (filelist : String) (h : Inv E check db log) :
    Inv E check (db.readDocList E fs filelist)
      (log ++ ingestsOf fs db (Cmd.readDocList filelist)) := by
  simp only [Database.readDocList, ingestsOf]
  cases hfl : fs filelist with
  | none => simpa using h
  | some content => exact Inv_foldl_readDoc E check fs _ db log h

theorem Inv_congr (E : Env) (check : Bool) (db db1 : Database) (log : List Ingest)
    (hd : db1.docIDs_ = db.docIDs_)
    (hp : ∀ t, Index.get db1.invert_index_ t = Index.get db.invert_index_ t)
    (h : Inv E check db log) : Inv E check db1 log := by
  refine ⟨hd.trans h.1, ?_⟩
  intro t d c
  rw [← h.2 t d c]
  unfold Database.postingsOf
  rw [hp t]

/-! ## What `queryWord` leaves alone -/

theorem queryWord_docIDs (E : Env) (fs : FS) (db : Database) (word : String) (topnum : Int)
    (out : OStream) : (db.queryWord E fs word topnum out).1.docIDs_ = db.docIDs_ := by
  unfold Database.queryWord
  simp only
  split
  · rfl
  · split
    · rfl
    · split <;> rfl

theorem queryWord_stop_words (E : Env) (fs : FS) (db : Database) (word : String) (topnum : Int)
    (out : OStream) : (db.queryWord E fs word topnum out).1.stop_words_ = db.stop_words_ := by
  unfold Database.queryWord
  simp only
  split
  · rfl
  · split
    · rfl
    · split <;> rfl

theorem queryWord_get (E : Env) (fs : FS) (db : Database) (word : String) (topnum : Int)
    (out : OStream) (t : String) :
    Index.get (db.queryWord E fs word topnum out).1.invert_index_ t =
      Index.get db.invert_index_ t := by
  unfold Database.queryWord
  simp only
  split
  · rfl
  · split
    · exact Index.get_lookup _ _ _ _
    · split <;> exact Index.get_lookup _ _ _ _

theorem queryList_frame (E : Env) (fs : FS) (topnum : Int) :
    ∀ (ws : List String) (s : Database × OStream),
      let r := ws.foldl (fun s word => Database.queryWord E fs s.1 word topnum s.2) s
      r.1.docIDs_ = s.1.docIDs_ ∧ r.1.stop_words_ = s.1.stop_words_ ∧
        ∀ t, Index.get r.1.invert_index_ t = Index.get s.1.invert_index_ t := by
  intro ws
  induction ws with
  | nil => intro s; exact ⟨rfl, rfl, fun _ => rfl⟩
  | cons w rest ih =>
    intro s
    obtain ⟨h1, h2, h3⟩ := ih (Database.queryWord E fs s.1 w topnum s.2)
    refine ⟨h1.trans (queryWord_docIDs ..), h2.trans (queryWord_stop_words ..), fun t => ?_⟩
    exact (h3 t).trans (queryWord_get ..)

theorem queryList_keeps (E : Env) (fs : FS) (db : Database) (wordfile : String) (topnum : Int)
    (out : OStream) :
    (db.queryList E fs wordfile topnum out).1.docIDs_ = db.docIDs_ ∧
      (db.queryList E fs wordfile topnum out).1.stop_words_ = db.stop_words_ ∧
      ∀ t, Index.get (db.queryList E fs wordfile topnum out).1.invert_index_ t =
        Index.get db.invert_index_ t := by
  unfold Database.queryList
  cases fs wordfile with
  | none => exact ⟨rfl, rfl, fun _ => rfl⟩
  | some content => exact queryList_frame E fs topnum (tokens content) (db, out)
/-! ## The effect of `sort` -/

theorem byCount_strictWeak : StrictWeakOrdering byCount where
  irrefl := fun a => by simp [byCount]
  trans := fun a b c h1 h2 => by
    simp only [byCount, decide_eq_true_eq] at *
    omega
  equiv_trans := fun a b c h1 h2 h3 h4 => by
    simp only [byCount, decide_eq_false_iff_not] at *
    omega

theorem find?_sortEntries (S : StdSort) (t : String) :
    ∀ (idx idx1 : Index), sortEntries S idx = some idx1 →
      StdMap.find? idx1 t = (StdMap.find? idx t).map (Option.map (S.sort byCount)) := by
  intro idx
  induction idx with
  | nil =>
    intro idx1 h
    simp only [sortEntries, Option.some.injEq] at h
    subst h
    rfl
  | cons e rest ih =>
    intro idx1 h
    obtain ⟨k, v⟩ := e
    cases v with
    | none => simp [sortEntries] at h
    | some posting =>
      simp only [sortEntries, Option.map_eq_some'] at h
      obtain ⟨r, hr, rfl⟩ := h
      simp only [StdMap.find?]
      split
      · rfl
      · exact ih r hr

theorem mem_sortEntries (S : StdSort) :
    ∀ (idx idx1 : Index), sortEntries S idx = some idx1 →
      ∀ e ∈ idx1, ∃ posting, (e.1, some posting) ∈ idx ∧
        e.2 = some (S.sort byCount posting) := by
  intro idx
  induction idx with
  | nil =>
    intro idx1 h e he
    simp only [sortEntries, Option.some.injEq] at h
    subst h
    cases he
  | cons x rest ih =>
    intro idx1 h e he
    obtain ⟨k, v⟩ := x
    cases v with
    | none => simp [sortEntries] at h
    | some posting =>
      simp only [sortEntries, Option.map_eq_some'] at h
      obtain ⟨r, hr, rfl⟩ := h
      rcases List.mem_cons.1 he with rfl | he
      · exact ⟨posting, List.mem_cons_self _ _, rfl⟩
      · obtain ⟨p, hp, hp2⟩ := ih r hr e he
        exact ⟨p, List.mem_cons_of_mem _ hp, hp2⟩

theorem keys_sortEntries (S : StdSort) :
    ∀ (idx idx1 : Index), sortEntries S idx = some idx1 →
      idx1.map Prod.fst = idx.map Prod.fst := by
  intro idx
  induction idx with
  | nil =>
    intro idx1 h
    simp only [sortEntries, Option.some.injEq] at h
    subst h
    rfl
  | cons x rest ih =>
    intro idx1 h
    obtain ⟨k, v⟩ := x
    cases v with
    | none => simp [sortEntries] at h
    | some posting =>
      simp only [sortEntries, Option.map_eq_some'] at h
      obtain ⟨r, hr, rfl⟩ := h
      simp [ih r hr]

theorem sort_eq_some (E : Env) (db db1 : Database) (h : db.sort E = some db1) :
    ∃ idx1, sortEntries E.stdsort db.invert_index_ = some idx1 ∧
      db1 = { db with invert_index_ := idx1 } := by
  simp only [Database.sort, Option.map_eq_some'] at h
  obtain ⟨idx1, h1, h2⟩ := h
  exact ⟨idx1, h1, h2.symm⟩

theorem get_sort (E : Env) (db db1 : Database) (h : db.sort E = some db1) (t : String) :
    Index.get db1.invert_index_ t =
      (Index.get db.invert_index_ t).map (E.stdsort.sort byCount) := by
  obtain ⟨idx1, h1, rfl⟩ := sort_eq_some E db db1 h
  simp only [Index.get, find?_sortEntries E.stdsort t _ _ h1]
  cases StdMap.find? db.invert_index_ t with
  | none => rfl
  | some v => cases v <;> rfl

theorem postingsOf_sort_perm (E : Env) (db db1 : Database) (h : db.sort E = some db1)
    (t : String) : (db1.postingsOf t).Perm (db.postingsOf t) := by
  unfold Database.postingsOf
  rw [get_sort E db db1 h t]
  cases Index.get db.invert_index_ t with
  | none => exact List.Perm.refl _
  | some p => exact E.stdsort.perm byCount p

theorem Inv_sort (E : Env) (check : Bool) (db db1 : Database) (log : List Ingest)
    (hs : db.sort E = some db1) (h : Inv E check db log) : Inv E check db1 log := by
  obtain ⟨idx1, _, hdb⟩ := sort_eq_some E db db1 hs
  refine ⟨by rw [hdb]; exact h.1, ?_⟩
  intro t d c
  rw [← h.2 t d c]
  exact (postingsOf_sort_perm E db db1 hs t).mem_iff

/-! ## Runs -/

theorem Inv_exec (E : Env) (check : Bool) (fs : FS) (s s1 : State) (c : Cmd)
    (log : List Ingest) (h : Inv E check s.db log) (hx : exec E fs s c = some s1) :
    Inv E check s1.db (log ++ ingestsOf fs s.db c) := by
  cases c with
  | readDoc file =>
    simp only [exec, Option.some.injEq] at hx
    subst hx
    exact Inv_readDoc E check fs s.db log file h
  | readDocList filelist =>
    simp only [exec, Option.some.injEq] at hx
    subst hx
    exact Inv_readDocList E check fs s.db log filelist h
  | readStopWord file =>
    simp only [exec, Option.some.injEq] at hx
    subst hx
    simp only [ingestsOf, List.append_nil]
    refine Inv_congr E check s.db _ log ?_ ?_ h
    · unfold Database.readStopWord; cases fs file <;> rfl
    · intro t; unfold Database.readStopWord; cases fs file <;> rfl
  | queryWord word topnum =>
    simp only [exec, Option.some.injEq] at hx
    subst hx
    simp only [ingestsOf, List.append_nil]
    exact Inv_congr E check s.db _ log (queryWord_docIDs ..)
      (fun t => queryWord_get E fs s.db word topnum s.out t) h
  | queryList wordfile topnum =>
    simp only [exec, Option.some.injEq] at hx
    subst hx
    simp only [ingestsOf, List.append_nil]
    obtain ⟨h1, _, h3⟩ := queryList_keeps E fs s.db wordfile topnum s.out
    exact Inv_congr E check s.db _ log h1 h3 h
  | sort =>
    simp only [exec, Option.map_eq_some'] at hx
    obtain ⟨db1, hs, rfl⟩ := hx
    simp only [ingestsOf, List.append_nil]
    exact Inv_sort E check s.db db1 log hs h
  | showInfo =>
    simp only [exec, Option.some.injEq] at hx
    subst hx
    simpa [ingestsOf] using h
  | showTerms =>
    simp only [exec, Option.some.injEq] at hx
    subst hx
    simpa [ingestsOf] using h

theorem Inv_run (E : Env) (check : Bool) :
    ∀ (calls : List (FS × Cmd)) (s s1 : State) (log : List Ingest),
      Inv E check s.db log → run E calls s = some s1 →
      Inv E check s1.db (log ++ history E calls s) := by
  intro calls
  induction calls with
  | nil =>
    intro s s1 log h hr
    simp only [run, Option.some.injEq] at hr
    subst hr
    simpa [history] using h
  | cons x rest ih =>
    intro s s1 log h hr
    obtain ⟨fs, c⟩ := x
    simp only [run] at hr
    cases hx : exec E fs s c with
    | none => simp [hx] at hr
    | some s2 =>
      simp only [hx] at hr
      have h2 := ih s2 s1 _ (Inv_exec E check fs s s2 c log h hx) hr
      simpa [history, hx, List.append_assoc] using h2

theorem Inv_fresh (E : Env) (check : Bool) : Inv E check (Database.fresh check) [] := by
  refine ⟨by cases check <;> rfl, ?_⟩
  intro t d c
  simp [Database.postingsOf, Database.fresh, Index.get, StdMap.find?]

theorem Inv_reachable (E : Env) (check : Bool) (calls : List (FS × Cmd)) (s : State)
    (h : run E calls (State.fresh check) = some s) :
    Inv E check s.db (history E calls (State.fresh check)) := by
  have := Inv_run E check calls (State.fresh check) s [] (Inv_fresh E check) h
  simpa using this
/-! ## C1: what a posting list contains -/

/-- C1: in every state reached from a fresh database, the posting list of a
term `t` contains the posting `(d, c)` exactly when the successful `readDoc`
call numbered `d` read a document in which `c ≥ 1` white-space delimited words
have `stemming` equal to `t`, while `t` was non-empty and not among the stop
words of that moment. Stop words loaded later play no part. -/
theorem C1_posting_iff_counted (E : Env) (check : Bool) (calls : List (FS × Cmd)) (s : State)
    (h : run E calls (State.fresh check) = some s) (t : String) (d c : Nat) :
    (d, c) ∈ s.db.postingsOf t ↔
      ∃ r, (history E calls (State.fresh check))[d]? = some r ∧ t ≠ "" ∧ t ∉ r.stops ∧
        c = occurrences E t r.words ∧ 1 ≤ c :=
  (Inv_reachable E check calls s h).2 t d c

/-- Witness of C1: the round-trip scenario, with the word made a stop word
after the document was read. The posting `(1, 2)` of `cat` is stored (the
scenario document is the second one opened) and matches the record. -/
theorem C1_posting_iff_counted_witness :
    run rbtEnv catCalls (State.fresh true) = some catState ∧
      catState.db.postingsOf "cat" = [(1, 2)] ∧
      "cat" ∈ catState.db.stop_words_ ∧
      ((1, 2) ∈ catState.db.postingsOf "cat" ↔
        ∃ r, (history rbtEnv catCalls (State.fresh true))[1]? = some r ∧ "cat" ≠ "" ∧
          "cat" ∉ r.stops ∧ 2 = occurrences rbtEnv "cat" r.words ∧ 1 ≤ 2) :=
  ⟨by decide, by decide, by decide,
    C1_posting_iff_counted rbtEnv true catCalls catState (by decide) "cat" 1 2⟩

/-! ## C2: document ids -/

/-- C2: after any run from a fresh database the registry holds as many
documents as there were successful `readDoc` calls (in the `CHECK` build their
paths, in the order of the calls), `showInfo` prints that number, the next
`readDoc` call whose file opens is assigned exactly that number as id
(whatever the file contains) and raises the count by one, and a `readDoc` call
whose file cannot be opened changes nothing. -/
theorem C2_ids_sequential (E : Env) (check : Bool) (calls : List (FS × Cmd)) (s : State)
    (h : run E calls (State.fresh check) = some s) :
    s.db.docIDs_ = registry check (history E calls (State.fresh check)) ∧
    s.db.docIDs_.size = (history E calls (State.fresh check)).length ∧
    (s.db.showInfo OStream.cout).lines =
      [Line.infoDocuments (history E calls (State.fresh check)).length,
       Line.infoStopWords s.db.stop_words_.length, Line.blank] ∧
    (∀ (fs : FS) (file content : String), fs file = some content →
      (DocIDs.assign file s.db.docIDs_).1 = (history E calls (State.fresh check)).length ∧
      (s.db.readDoc E fs file).docIDs_ = (DocIDs.assign file s.db.docIDs_).2 ∧
      (s.db.readDoc E fs file).docIDs_.size =
        (history E calls (State.fresh check)).length + 1) ∧
    (∀ (fs : FS) (file : String), fs file = none → s.db.readDoc E fs file = s.db) := by
  have hinv := (Inv_reachable E check calls s h).1
  have hsize : s.db.docIDs_.size = (history E calls (State.fresh check)).length := by
    rw [hinv, size_registry]
  refine ⟨hinv, hsize, ?_, ?_, ?_⟩
  · simp [Database.showInfo, OStream.put, OStream.cout, hsize]
  · intro fs file content hf
    have ha := assign_registry check (history E calls (State.fresh check))
      { path := file, words := tokens content, stops := s.db.stop_words_ }
    simp only at ha
    rw [readDoc_docIDs E fs s.db file content hf, hinv, ha]
    exact ⟨rfl, rfl, by rw [size_registry]; simp⟩
  · intro fs file hf
    exact readDoc_none E fs s.db file hf

/-- Witness of C2: of three `readDoc` calls the first cannot open its file,
the second reads a document without indexable words; two ids are in use and
the next document gets id `2`. -/
theorem C2_ids_sequential_witness :
    run rbtEnv catCalls (State.fresh true) = some catState ∧
      (history rbtEnv catCalls (State.fresh true)).length = 2 ∧
      catState.db.docIDs_ = DocIDs.paths ["digits", "doc"] ∧
      (DocIDs.assign "doc2" catState.db.docIDs_).1 = 2 :=
  ⟨by decide, by decide, by decide,
    by
      have h := (C2_ids_sequential rbtEnv true catCalls catState (by decide)).2.2.2.1
        catFS "doc2" "A cat on a mat." (by decide)
      rw [h.1]
      decide⟩
/-! ## C3, C4: the lines `queryWord` writes -/

theorem lines_put (out : OStream) (l : Line) (h : out.good = true) :
    (out.put l).lines = out.lines ++ [l] ∧ (out.put l).good = true := by
  simp [OStream.put, h]

theorem printPostings_lines :
    ∀ (L : postings) (topnum : Int) (out : OStream), out.good = true →
      (printPostings L topnum out).good = true ∧
      (printPostings L topnum out).lines =
        out.lines ++ (if topnum < 0 then L else L.take topnum.toNat).map
          (fun p => Line.posting p.1 p.2) := by
  intro L
  induction L with
  | nil => intro topnum out h; simp [printPostings, h]
  | cons doc rest ih =>
    intro topnum out h
    simp only [printPostings]
    by_cases h0 : topnum = 0
    · subst h0
      simp [h]
    · rw [if_neg h0]
      obtain ⟨hl, hg⟩ := lines_put out (Line.posting doc.1 doc.2) h
      obtain ⟨ihg, ihl⟩ := ih (topnum - 1) _ hg
      refine ⟨ihg, ?_⟩
      rw [ihl, hl]
      by_cases hneg : topnum < 0
      · have : topnum - 1 < 0 := by omega
        simp [hneg, this]
      · have h1 : ¬ topnum - 1 < 0 := by omega
        have h2 : topnum.toNat = (topnum - 1).toNat + 1 := by omega
        rw [if_neg hneg, if_neg h1, h2, List.take_succ_cons]
        simp

theorem checkTail_lines (E : Env) (fs : FS) (docIDs_ : DocIDs) (word : String)
    (posting : postings) (out : OStream) (h : out.good = true) :
    ∃ tail, (tail = [] ∨ tail = [Line.checkPassed word] ∨ tail = [Line.checkFailed word]) ∧
      (checkTail E fs docIDs_ word posting out).lines = out.lines ++ tail := by
  unfold checkTail
  cases docIDs_ with
  | count n => exact ⟨[], Or.inl rfl, by simp⟩
  | paths v =>
    simp only
    split
    · exact ⟨_, Or.inr (Or.inl rfl), (lines_put out _ h).1⟩
    · exact ⟨_, Or.inr (Or.inr rfl), (lines_put out _ h).1⟩

theorem queryWord_lines_stop (E : Env) (fs : FS) (db : Database) (w : String) (topnum : Int)
    (out : OStream) (hgood : out.good = true) (hstop : stemming E w ∈ db.stop_words_) :
    (db.queryWord E fs w topnum out).2.lines =
      out.lines ++ [Line.querying w, Line.stopWord (stemming E w)] := by
  obtain ⟨h1, g1⟩ := lines_put out (Line.querying w) hgood
  have hc : db.stop_words_.contains (stemming E w) = true :=
    (contains_eq_true_iff _ _).2 hstop
  simp only [Database.queryWord, hc, if_true]
  rw [(lines_put _ _ g1).1, h1]
  simp

theorem queryWord_lines_absent (E : Env) (fs : FS) (db : Database) (w : String) (topnum : Int)
    (out : OStream) (hgood : out.good = true) (hstop : stemming E w ∉ db.stop_words_)
    (hget : Index.get db.invert_index_ (stemming E w) = none) :
    (db.queryWord E fs w topnum out).2.lines =
      out.lines ++ [Line.querying w, Line.notFound (stemming E w)] := by
  obtain ⟨h1, g1⟩ := lines_put out (Line.querying w) hgood
  have hc : db.stop_words_.contains (stemming E w) = false := by
    rw [Bool.eq_false_iff]
    exact fun h => hstop ((contains_eq_true_iff _ _).1 h)
  simp only [Database.queryWord, hc, Bool.false_eq_true, if_false, Index.lookup_snd, hget]
  rw [(lines_put _ _ g1).1, h1]
  simp

theorem queryWord_lines_found (E : Env) (fs : FS) (db : Database) (w : String) (topnum : Int)
    (out : OStream) (L : postings) (hgood : out.good = true)
    (hstop : stemming E w ∉ db.stop_words_)
    (hget : Index.get db.invert_index_ (stemming E w) = some L) :
    ∃ tail, (tail = [] ∨ tail = [Line.checkPassed (stemming E w)] ∨
        tail = [Line.checkFailed (stemming E w)]) ∧
      (db.queryWord E fs w topnum out).2.lines =
        out.lines ++ Line.querying w ::
          ((if E.noOutput then []
            else (if topnum < 0 then L else L.take topnum.toNat).map
              (fun p => Line.posting p.1 p.2)) ++ tail) := by
  obtain ⟨h1, g1⟩ := lines_put out (Line.querying w) hgood
  have hc : db.stop_words_.contains (stemming E w) = false := by
    rw [Bool.eq_false_iff]
    exact fun h => hstop ((contains_eq_true_iff _ _).1 h)
  simp only [Database.queryWord, hc, Bool.false_eq_true, if_false, Index.lookup_snd, hget, g1,
    Bool.not_true]
  cases hno : E.noOutput with
  | true =>
    obtain ⟨tail, ht, hl⟩ := checkTail_lines E fs db.docIDs_ (stemming E w) L
      (out.put (Line.querying w)) g1
    refine ⟨tail, ht, ?_⟩
    simp only [if_true, Bool.false_eq_true, if_false]
    rw [hl, h1]
    simp
  | false =>
    obtain ⟨pg, pl⟩ := printPostings_lines L topnum (out.put (Line.querying w)) g1
    obtain ⟨tail, ht, hl⟩ := checkTail_lines E fs db.docIDs_ (stemming E w) L _ pg
    refine ⟨tail, ht, ?_⟩
    simp only [Bool.false_eq_true, if_false]
    rw [hl, pl, h1]
    simp

/-- C3, amended: for a query word whose normal form `t` is not a stop word and
is bound in the index to the posting list `L`, on a writable stream and in a
build that prints postings, `queryWord` writes its heading line, then the
postings of `L` in the order of `L` (the first `topnum` of them, hence
`min topnum |L|`, when `topnum ≥ 0`, and all of them when `topnum < 0`), then
at most the line of the `CHECK` build. The not-found line is not written, also
when `topnum = 0`. -/
theorem C3_query_emits_first (E : Env) (fs : FS) (db : Database) (w : String) (topnum : Int)
    (out : OStream) (L : postings) (hgood : out.good = true) (hout : E.noOutput = false)
    (hstop : stemming E w ∉ db.stop_words_)
    (hL : StdMap.find? db.invert_index_ (stemming E w) = some (some L)) :
    ∃ tail, (tail = [] ∨ tail = [Line.checkPassed (stemming E w)] ∨
        tail = [Line.checkFailed (stemming E w)]) ∧
      (db.queryWord E fs w topnum out).2.lines =
        out.lines ++ Line.querying w ::
          ((if topnum < 0 then L else L.take topnum.toNat).map
            (fun p => Line.posting p.1 p.2) ++ tail) ∧
      (0 ≤ topnum → (L.take topnum.toNat).length = min topnum.toNat L.length) ∧
      (topnum = 0 → (db.queryWord E fs w topnum out).2.lines =
        out.lines ++ Line.querying w :: tail) := by
  have hget : Index.get db.invert_index_ (stemming E w) = some L := by
    simp [Index.get, hL]
  obtain ⟨tail, ht, hl⟩ := queryWord_lines_found E fs db w topnum out L hgood hstop hget
  simp only [hout, Bool.false_eq_true, if_false] at hl
  refine ⟨tail, ht, hl, fun _ => List.length_take _ _, ?_⟩
  intro h0
  rw [hl, h0]
  simp
/-- Witness of C3: asking for one posting of `cat`, which has two. -/
theorem C3_query_emits_first_witness :
    ∃ tail, (tail = [] ∨ tail = [Line.checkPassed (stemming rbtEnv "Cat")] ∨
        tail = [Line.checkFailed (stemming rbtEnv "Cat")]) ∧
      (twoDocs.queryWord rbtEnv catFS "Cat" 1 OStream.cout).2.lines =
        OStream.cout.lines ++ Line.querying "Cat" ::
          ((if (1 : Int) < 0 then [(0, 2), (1, 1)] else
              ([(0, 2), (1, 1)] : postings).take (1 : Int).toNat).map
            (fun p => Line.posting p.1 p.2) ++ tail) ∧
      (0 ≤ (1 : Int) → (([(0, 2), (1, 1)] : postings).take (1 : Int).toNat).length =
        min (1 : Int).toNat ([(0, 2), (1, 1)] : postings).length) ∧
      ((1 : Int) = 0 → (twoDocs.queryWord rbtEnv catFS "Cat" 1 OStream.cout).2.lines =
        OStream.cout.lines ++ Line.querying "Cat" :: tail) :=
  C3_query_emits_first rbtEnv catFS twoDocs "Cat" 1 OStream.cout [(0, 2), (1, 1)]
    (by decide) (by decide) (by decide) (by decide)

/-- C4, as stated, fails: the empty word, and a query word without any
letter, have the empty normal form, and on a fresh database `queryWord`
reports them as not found, not as stop words. -/
theorem C4_empty_word_not_found :
    stemming rbtEnv "" = "" ∧
      ((Database.fresh false).queryWord rbtEnv catFS "" (-1) OStream.cout).2.lines =
        [Line.querying "", Line.notFound ""] ∧
    stemming rbtEnv "12" = "" ∧
      ((Database.fresh false).queryWord rbtEnv catFS "12" (-1) OStream.cout).2.lines =
        [Line.querying "12", Line.notFound ""] := by
  decide

theorem written_append (out out1 : OStream) (added : List Line)
    (h : out1.lines = out.lines ++ added) : written out out1 = added := by
  simp [written, h]

/-- C4, amended: on a writable stream `queryWord` writes the stop-word line
exactly when the normal form of the query word is a member of the stop-word
set, and the not-found line exactly when the normal form is not a stop word
and has no posting list in the index. Emptiness of the normal form plays no
part. -/
theorem C4_stop_word_iff_member (E : Env) (fs : FS) (db : Database) (w : String)
    (topnum : Int) (out : OStream) (hgood : out.good = true) :
    (Line.stopWord (stemming E w) ∈ written out (db.queryWord E fs w topnum out).2 ↔
      stemming E w ∈ db.stop_words_) ∧
    (Line.notFound (stemming E w) ∈ written out (db.queryWord E fs w topnum out).2 ↔
      stemming E w ∉ db.stop_words_ ∧ Index.get db.invert_index_ (stemming E w) = none) := by
  by_cases hstop : stemming E w ∈ db.stop_words_
  · rw [written_append _ _ _ (queryWord_lines_stop E fs db w topnum out hgood hstop)]
    simp [hstop]
  · cases hget : Index.get db.invert_index_ (stemming E w) with
    | none =>
      rw [written_append _ _ _ (queryWord_lines_absent E fs db w topnum out hgood hstop hget)]
      simp [hstop]
    | some L =>
      obtain ⟨tail, ht, hl⟩ := queryWord_lines_found E fs db w topnum out L hgood hstop hget
      rw [written_append _ _ _ hl]
      have hmap : ∀ (l : Line) (M : postings), (∀ d c, l ≠ Line.posting d c) →
          l ∉ M.map (fun p => Line.posting p.1 p.2) := by
        intro l M hl hm
        obtain ⟨p, _, hp⟩ := List.mem_map.1 hm
        exact hl p.1 p.2 hp.symm
      have hpost : ∀ (l : Line), (∀ d c, l ≠ Line.posting d c) →
          l ∉ (if E.noOutput then []
            else (if topnum < 0 then L else L.take topnum.toNat).map
              (fun p => Line.posting p.1 p.2)) := by
        intro l hl
        split
        · simp
        · exact hmap l _ hl
      have h1 := hpost (Line.stopWord (stemming E w)) (fun _ _ => by simp)
      have h2 := hpost (Line.notFound (stemming E w)) (fun _ _ => by simp)
      rcases ht with rfl | rfl | rfl <;> simp [hstop, h1, h2]

/-- Witness of C4, amended: `cat` was made a stop word, and asking for `Cat`
gives the stop-word line. -/
theorem C4_stop_word_iff_member_witness :
    OStream.cout.good = true ∧
    (Line.stopWord (stemming rbtEnv "Cat") ∈
        written OStream.cout (catState.db.queryWord rbtEnv catFS "Cat" 1 OStream.cout).2 ↔
      stemming rbtEnv "Cat" ∈ catState.db.stop_words_) ∧
    (Line.notFound (stemming rbtEnv "Cat") ∈
        written OStream.cout (catState.db.queryWord rbtEnv catFS "Cat" 1 OStream.cout).2 ↔
      stemming rbtEnv "Cat" ∉ catState.db.stop_words_ ∧
        Index.get catState.db.invert_index_ (stemming rbtEnv "Cat") = none) :=
  ⟨by decide, C4_stop_word_iff_member rbtEnv catFS catState.db "Cat" 1 OStream.cout (by decide)⟩

/-! ## C5: stop words are stored as read -/

/-- C5, the code at the failing input: the stop-word file holds the word
`The`. `readStopWord` stores it as read, its normal form `the` is not in the
set, so `readDoc` indexes the three occurrences of `the` and `queryWord`
prints the posting. -/
theorem C5_stop_word_stored_raw :
    ((Database.fresh false).readStopWord catFS "Stop").stop_words_ = ["The"] ∧
    stemming rbtEnv "The" = "the" ∧
    stemming rbtEnv "The" ∉ ((Database.fresh false).readStopWord catFS "Stop").stop_words_ ∧
    ((((Database.fresh false).readStopWord catFS "Stop").readDoc rbtEnv catFS "doc").postingsOf
      "the") = [(0, 3)] ∧
    (((((Database.fresh false).readStopWord catFS "Stop").readDoc rbtEnv catFS "doc").queryWord
      rbtEnv catFS "The" (-1) OStream.cout).2.lines) =
        [Line.querying "The", Line.posting 0 3] := by
  decide
/-! ## C6: the order `sort` leaves -/

theorem sorted_desc (S : StdSort) (posting : postings) :
    (S.sort byCount posting).Pairwise (fun a b => b.2 ≤ a.2) := by
  refine (S.sorted byCount posting byCount_strictWeak).imp ?_
  intro a b h
  simp only [byCount, decide_eq_false_iff_not] at h
  omega

/-- C6: after `sort`, every entry of the index is bound to a posting list in
which, for all positions `i < j`, the count at `i` is at least the count at
`j`. This holds for every `std::sort` that meets its contract. -/
theorem C6_sorted_by_count (E : Env) (db db1 : Database) (h : db.sort E = some db1) :
    ∀ e ∈ db1.invert_index_, ∃ L, e.2 = some L ∧
      ∀ (i j : Nat) (p q : Posting), i < j → L[i]? = some p → L[j]? = some q → q.2 ≤ p.2 := by
  intro e he
  obtain ⟨idx1, h1, rfl⟩ := sort_eq_some E db db1 h
  obtain ⟨posting, _, hp⟩ := mem_sortEntries E.stdsort _ _ h1 e he
  refine ⟨_, hp, ?_⟩
  intro i j p q hij hi hj
  obtain ⟨hi1, rfl⟩ := List.getElem?_eq_some.1 hi
  obtain ⟨hj1, rfl⟩ := List.getElem?_eq_some.1 hj
  exact List.pairwise_iff_getElem.1 (sorted_desc E.stdsort posting) i j hi1 hj1 hij

/-- Witness of C6: sorting a list given in ingestion order. -/
theorem C6_sorted_by_count_witness :
    sortDb.sort rbtEnv = some { sortDb with
      invert_index_ := [("cat", some [(1, 5), (2, 5), (0, 1)])] } ∧
    ∀ e ∈ ({ sortDb with
        invert_index_ := [("cat", some [(1, 5), (2, 5), (0, 1)])] } : Database).invert_index_,
      ∃ L, e.2 = some L ∧
        ∀ (i j : Nat) (p q : Posting), i < j → L[i]? = some p → L[j]? = some q → q.2 ≤ p.2 :=
  ⟨by decide, C6_sorted_by_count rbtEnv sortDb _ (by decide)⟩

theorem sortEntries_sorted_isSome (S : StdSort) :
    ∀ (idx idx1 : Index), sortEntries S idx = some idx1 →
      ∃ idx2, sortEntries S idx1 = some idx2 := by
  intro idx
  induction idx with
  | nil =>
    intro idx1 h
    simp only [sortEntries, Option.some.injEq] at h
    subst h
    exact ⟨[], rfl⟩
  | cons x rest ih =>
    intro idx1 h
    obtain ⟨k, v⟩ := x
    cases v with
    | none => simp [sortEntries] at h
    | some posting =>
      simp only [sortEntries, Option.map_eq_some'] at h
      obtain ⟨r, hr, rfl⟩ := h
      obtain ⟨r2, hr2⟩ := ih r hr
      exact ⟨(k, some (S.sort byCount (S.sort byCount posting))) :: r2,
        by simp [sortEntries, hr2]⟩

theorem counts_sort_sorted (S : StdSort) (posting : postings) :
    (S.sort byCount (S.sort byCount posting)).map Prod.snd =
      (S.sort byCount posting).map Prod.snd := by
  have hperm : ((S.sort byCount (S.sort byCount posting)).map Prod.snd).Perm
      ((S.sort byCount posting).map Prod.snd) := (S.perm byCount _).map _
  have h1 : ((S.sort byCount (S.sort byCount posting)).map Prod.snd).Sorted (· ≥ ·) :=
    List.pairwise_map.2 (sorted_desc S _)
  have h2 : ((S.sort byCount posting).map Prod.snd).Sorted (· ≥ ·) :=
    List.pairwise_map.2 (sorted_desc S _)
  exact List.eq_of_perm_of_sorted hperm h1 h2

/-! ## C9: `queryWord` and the keys of the index -/

/-- C9, the code at the failing input: in the `RBT` and `HASH` builds a query
for a word that is not in the index leaves the key in the index, bound to a
null pointer; a `sort` that follows dereferences it. The `ART` build leaves
the database as it was. -/
theorem C9_query_inserts_key :
    ((Database.fresh false).queryWord rbtEnv catFS "zebra" (-1) OStream.cout).1.invert_index_ =
      [("zebra", none)] ∧
    ((Database.fresh false).queryWord hashEnv catFS "zebra" (-1) OStream.cout).1.invert_index_ =
      [("zebra", none)] ∧
    ((Database.fresh false).queryWord rbtEnv catFS "zebra" (-1) OStream.cout).1 ≠
      Database.fresh false ∧
    (((Database.fresh false).queryWord rbtEnv catFS "zebra" (-1) OStream.cout).1.sort rbtEnv) =
      none ∧
    ((Database.fresh false).queryWord artEnv catFS "zebra" (-1) OStream.cout).1 =
      Database.fresh false := by
  decide
/-! ## C10: the recount of the `CHECK` build -/

theorem recount_eq (E : Env) (word : String) :
    ∀ (ws : List String) (count : Nat),
      recount E word ws count = count + occurrences E word ws := by
  intro ws
  induction ws with
  | nil => intro count; simp [recount, occurrences]
  | cons str rest ih =>
    intro count
    simp only [recount]
    split
    · rename_i h
      rw [ih]
      simp [occurrences, List.countP_cons, h]
      omega
    · rename_i h
      rw [ih]
      simp [occurrences, List.countP_cons, h]

theorem checkQueryWord_of_forall (E : Env) (fs : FS) (v : List String) (word : String) :
    ∀ (L : postings),
      (∀ doc ∈ L, ∃ file content, v[doc.1]? = some file ∧ fs file = some content ∧
        occurrences E word (tokens content) = doc.2) →
      checkQueryWord E fs v word L = true := by
  intro L
  induction L with
  | nil => intro _; rfl
  | cons doc rest ih =>
    intro h
    obtain ⟨file, content, hv, hf, hc⟩ := h doc (List.mem_cons_self _ _)
    simp only [checkQueryWord, hv, hf, recount_eq, Nat.zero_add, hc, ne_eq, not_true_eq_false,
      if_false]
    exact ih (fun d hd => h d (List.mem_cons_of_mem _ hd))

/-- C10: in the `CHECK` build, in every state reached from a fresh database
by `readDoc`, `readDocList`, `readStopWord`, `queryWord`, `queryList`, `sort`
and the two `show` calls, `checkQueryWord` returns `true` for every term bound
to a posting list and that list, provided the file system the check reads
still gives, for the path of every ingested document, a content with the words
that were read at ingestion. -/
theorem C10_check_passes (E : Env) (calls : List (FS × Cmd)) (s : State)
    (h : run E calls (State.fresh true) = some s) (fs : FS)
    (hfs : ∀ r ∈ history E calls (State.fresh true),
      ∃ content, fs r.path = some content ∧ tokens content = r.words)
    (t : String) (L : postings)
    (hL : StdMap.find? s.db.invert_index_ t = some (some L)) :
    ∃ v, s.db.docIDs_ = DocIDs.paths v ∧ checkQueryWord E fs v t L = true := by
  obtain ⟨hreg, hpost⟩ := Inv_reachable E true calls s h
  refine ⟨_, hreg, ?_⟩
  apply checkQueryWord_of_forall
  intro doc hdoc
  have hmem : (doc.1, doc.2) ∈ s.db.postingsOf t := by
    simpa [Database.postingsOf, Index.get, hL] using hdoc
  obtain ⟨r, hr, _, _, hc, _⟩ := (hpost t doc.1 doc.2).1 hmem
  obtain ⟨content, hf, htok⟩ := hfs r (List.getElem?_mem hr)
  refine ⟨r.path, content, ?_, hf, ?_⟩
  · simp [hr]
  · rw [htok, ← hc]

/-- Witness of C10: the two-document run followed by a `sort`, checked against
the file system that was read. -/
theorem C10_check_passes_witness :
    run rbtEnv tieCalls (State.fresh true) ≠ none ∧
    ∃ v, ((run rbtEnv tieCalls (State.fresh true)).getD (State.fresh true)).db.docIDs_ =
        DocIDs.paths v ∧
      checkQueryWord rbtEnv catFS v "cat" [(0, 2), (1, 1)] = true :=
  ⟨by decide,
    C10_check_passes rbtEnv tieCalls ((run rbtEnv tieCalls (State.fresh true)).getD
      (State.fresh true)) (by decide) catFS (by decide) "cat" [(0, 2), (1, 1)] (by decide)⟩
/-! ## C11: what `checkQueryWord` decides -/

theorem checkQueryWord_iff (E : Env) (fs : FS) (v : List String) (word : String) :
    ∀ (L : postings), checkQueryWord E fs v word L = true ↔
      ∀ doc ∈ L, ∃ file content, v[doc.1]? = some file ∧ fs file = some content ∧
        occurrences E word (tokens content) = doc.2 := by
  intro L
  refine ⟨?_, checkQueryWord_of_forall E fs v word L⟩
  induction L with
  | nil => intro _ doc hdoc; cases hdoc
  | cons d rest ih =>
    intro h doc hdoc
    simp only [checkQueryWord] at h
    cases hv : v[d.1]? with
    | none => simp [hv] at h
    | some file =>
      cases hf : fs file with
      | none => simp [hv, hf] at h
      | some content =>
        simp only [hv, hf, recount_eq, Nat.zero_add] at h
        by_cases hc : occurrences E word (tokens content) = d.2
        · simp only [hc, ne_eq, not_true_eq_false, if_false] at h
          rcases List.mem_cons.1 hdoc with rfl | hmem
          · exact ⟨file, content, hv, hf, hc⟩
          · exact ih h doc hmem
        · simp [hc] at h

theorem checkQueryWord_eq_false_of (E : Env) (fs : FS) (v : List String) (word : String)
    (L : postings) (h : ¬ checkQueryWord E fs v word L = true) :
    checkQueryWord E fs v word L = false := by
  simpa using h

/-- C11: for a posting list whose ids are in the registry, `checkQueryWord`
returns `true` exactly when, for every posting `(d, c)` of the list, the file
recorded at `d` opens and holds exactly `c` words whose `stemming` is the term
(stop words are not looked at). Hence, when a list passes, the list obtained
by changing one stored count does not pass. -/
theorem C11_check_iff_recount (E : Env) (fs : FS) (v : List String) (t : String)
    (L : postings) (hrange : ∀ doc ∈ L, doc.1 < v.length) :
    (checkQueryWord E fs v t L = true ↔
      ∀ doc ∈ L, ∃ content, fs (v.getD doc.1 "") = some content ∧
        occurrences E t (tokens content) = doc.2) ∧
    (∀ (front back : postings) (d c c1 : Nat), L = front ++ (d, c) :: back →
      checkQueryWord E fs v t L = true → c1 ≠ c →
      checkQueryWord E fs v t (front ++ (d, c1) :: back) = false) := by
  have hget : ∀ doc ∈ L, v[doc.1]? = some (v.getD doc.1 "") := by
    intro doc hdoc
    have hlt := hrange doc hdoc
    simp [List.getD, List.getElem?_eq_getElem hlt]
  constructor
  · rw [checkQueryWord_iff]
    constructor
    · intro h doc hdoc
      obtain ⟨file, content, hv, hf, hc⟩ := h doc hdoc
      rw [hget doc hdoc] at hv
      cases hv
      exact ⟨content, hf, hc⟩
    · intro h doc hdoc
      obtain ⟨content, hf, hc⟩ := h doc hdoc
      exact ⟨_, content, hget doc hdoc, hf, hc⟩
  · intro front back d c c1 hL hpass hne
    apply checkQueryWord_eq_false_of
    intro hpass1
    rw [checkQueryWord_iff] at hpass hpass1
    subst hL
    obtain ⟨file, content, hv, hf, hc⟩ := hpass (d, c) (by simp)
    obtain ⟨file1, content1, hv1, hf1, hc1⟩ := hpass1 (d, c1) (by simp)
    simp only at hv hv1 hc hc1
    rw [hv] at hv1
    cases hv1
    rw [hf] at hf1
    cases hf1
    exact hne (hc1.symm.trans hc)

/-- Witness of C11: the list of `cat` over the two documents passes, and with
the count of the first posting changed from `2` to `3` it fails. -/
theorem C11_check_iff_recount_witness :
    checkQueryWord rbtEnv catFS ["doc", "doc2"] "cat" [(0, 2), (1, 1)] = true ∧
    checkQueryWord rbtEnv catFS ["doc", "doc2"] "cat" ([] ++ (0, 3) :: [(1, 1)]) = false :=
  ⟨by decide,
    (C11_check_iff_recount rbtEnv catFS ["doc", "doc2"] "cat" [(0, 2), (1, 1)]
      (by decide)).2 [] [(1, 1)] 0 2 3 rfl (by decide) (by decide)⟩
/-! ## The key order of the index -/

theorem ordered_lookup (b : Backend) (idx : Index) (key : String) (h : StdMap.Ordered idx) :
    StdMap.Ordered (Index.lookup b idx key).1 := by
  cases b <;> simp only [Index.lookup, Index.subscript]
  · exact h
  all_goals
    cases StdMap.find? idx key with
    | none => exact StdMap.ordered_set _ _ _ h
    | some p => exact h

theorem ordered_insertPosting (b : Backend) (docID : Nat) (idx : Index) (word : String × Nat)
    (h : StdMap.Ordered idx) : StdMap.Ordered (insertPosting b docID idx word) := by
  unfold insertPosting
  simp only
  split <;> exact StdMap.ordered_set _ _ _ (ordered_lookup b idx word.1 h)

theorem ordered_foldl_insertPosting (b : Backend) (docID : Nat) :
    ∀ (es : StdMap Nat) (idx : Index), StdMap.Ordered idx →
      StdMap.Ordered (es.foldl (insertPosting b docID) idx) := by
  intro es
  induction es with
  | nil => intro idx h; exact h
  | cons e rest ih => intro idx h; exact ih _ (ordered_insertPosting b docID idx e h)

theorem ordered_readDoc (E : Env) (fs : FS) (db : Database) (file : String)
    (h : StdMap.Ordered db.invert_index_) :
    StdMap.Ordered (db.readDoc E fs file).invert_index_ := by
  unfold Database.readDoc
  cases fs file with
  | none => exact h
  | some content => exact ordered_foldl_insertPosting _ _ _ _ h

theorem ordered_queryWord (E : Env) (fs : FS) (db : Database) (word : String) (topnum : Int)
    (out : OStream) (h : StdMap.Ordered db.invert_index_) :
    StdMap.Ordered (db.queryWord E fs word topnum out).1.invert_index_ := by
  unfold Database.queryWord
  simp only
  split
  · exact h
  · split
    · exact ordered_lookup _ _ _ h
    · split <;> exact ordered_lookup _ _ _ h

theorem ordered_of_keys {β : Type} (m m1 : StdMap β) (hk : m1.map Prod.fst = m.map Prod.fst)
    (h : StdMap.Ordered m) : StdMap.Ordered m1 := by
  unfold StdMap.Ordered at h ⊢
  have h1 : (m.map Prod.fst).Pairwise (fun a b => strLess a b = true) :=
    List.pairwise_map.2 h
  rw [← hk] at h1
  exact List.pairwise_map.1 h1

theorem find?_of_mem {β : Type} (m : StdMap β) (h : StdMap.Ordered m) (e : String × β)
    (he : e ∈ m) : StdMap.find? m e.1 = some e.2 := by
  induction m with
  | nil => cases he
  | cons x rest ih =>
    obtain ⟨k, v⟩ := x
    unfold StdMap.Ordered at h
    rw [List.pairwise_cons] at h
    rcases List.mem_cons.1 he with rfl | hmem
    · simp [StdMap.find?]
    · have hne : e.1 ≠ k := Ne.symm (strLess_ne (h.1 e hmem))
      simp only [StdMap.find?, hne, if_false]
      exact ih h.2 hmem

theorem mem_of_find? {β : Type} (m : StdMap β) (key : String) (v : β)
    (h : StdMap.find? m key = some v) : (key, v) ∈ m := by
  induction m with
  | nil => simp [StdMap.find?] at h
  | cons x rest ih =>
    obtain ⟨k, w⟩ := x
    simp only [StdMap.find?] at h
    split at h
    · rename_i hk
      cases h
      subst hk
      exact List.mem_cons_self _ _
    · exact List.mem_cons_of_mem _ (ih h)

theorem postingsOf_of_mem (db : Database) (h : StdMap.Ordered db.invert_index_)
    (e : String × Option postings) (he : e ∈ db.invert_index_) (L : postings)
    (hL : e.2 = some L) : db.postingsOf e.1 = L := by
  simp [Database.postingsOf, Index.get, find?_of_mem _ h e he, hL]

/-! ## C12, C18: the shape of the posting lists -/

theorem size_assign (file : String) (d : DocIDs) :
    (DocIDs.assign file d).1 = d.size ∧ (DocIDs.assign file d).2.size = d.size + 1 := by
  cases d <;> simp [DocIDs.assign, DocIDs.size]

theorem WellFormed_readDoc (E : Env) (fs : FS) (db : Database) (file : String)
    (h : WellFormed db) : WellFormed (db.readDoc E fs file) := by
  cases hf : fs file with
  | none => rw [readDoc_none E fs db file hf]; exact h
  | some content =>
    obtain ⟨hord, hall⟩ := h
    refine ⟨ordered_readDoc E fs db file hord, ?_⟩
    intro t
    obtain ⟨hnd, hb⟩ := hall t
    obtain ⟨ha1, ha2⟩ := size_assign file db.docIDs_
    rw [postingsOf_readDoc E fs db file content t hf, readDoc_docIDs E fs db file content hf,
      ha1, ha2]
    split
    · rw [List.append_nil]
      exact ⟨hnd, fun p hp => ⟨Nat.lt_succ_of_lt (hb p hp).1, (hb p hp).2⟩⟩
    · rename_i hk
      refine ⟨?_, ?_⟩
      · rw [List.map_append, List.nodup_append]
        refine ⟨hnd, by simp, ?_⟩
        intro a ha hb2
        simp only [List.map_cons, List.map_nil, List.mem_singleton] at hb2
        obtain ⟨p, hp, rfl⟩ := List.mem_map.1 ha
        have := (hb p hp).1
        omega
      · intro p hp
        rcases List.mem_append.1 hp with hp | hp
        · exact ⟨Nat.lt_succ_of_lt (hb p hp).1, (hb p hp).2⟩
        · simp only [List.mem_singleton] at hp
          subst hp
          exact ⟨Nat.lt_succ_self _, by simp only; omega⟩

theorem Ascending_readDoc (E : Env) (fs : FS) (db : Database) (file : String)
    (hw : WellFormed db) (h : Ascending db) : Ascending (db.readDoc E fs file) := by
  cases hf : fs file with
  | none => rw [readDoc_none E fs db file hf]; exact h
  | some content =>
    intro t
    obtain ⟨ha1, _⟩ := size_assign file db.docIDs_
    rw [postingsOf_readDoc E fs db file content t hf, ha1]
    split
    · rw [List.append_nil]; exact h t
    · rw [List.map_append, List.pairwise_append]
      refine ⟨h t, by simp, ?_⟩
      intro a ha b hb
      simp only [List.map_cons, List.map_nil, List.mem_singleton] at hb
      obtain ⟨p, hp, rfl⟩ := List.mem_map.1 ha
      rw [hb]
      exact ((hw.2 t).2 p hp).1

theorem WellFormed_congr (db db1 : Database) (hd : db1.docIDs_ = db.docIDs_)
    (hp : ∀ t, Index.get db1.invert_index_ t = Index.get db.invert_index_ t)
    (ho : StdMap.Ordered db1.invert_index_) (h : WellFormed db) : WellFormed db1 := by
  refine ⟨ho, ?_⟩
  intro t
  have : db1.postingsOf t = db.postingsOf t := by
    unfold Database.postingsOf; rw [hp t]
  rw [this, hd]
  exact h.2 t

theorem Ascending_congr (db db1 : Database)
    (hp : ∀ t, Index.get db1.invert_index_ t = Index.get db.invert_index_ t)
    (h : Ascending db) : Ascending db1 := by
  intro t
  have : db1.postingsOf t = db.postingsOf t := by
    unfold Database.postingsOf; rw [hp t]
  rw [this]
  exact h t

theorem WellFormed_sort (E : Env) (db db1 : Database) (hs : db.sort E = some db1)
    (h : WellFormed db) : WellFormed db1 := by
  obtain ⟨idx1, h1, hdb⟩ := sort_eq_some E db db1 hs
  have hk := keys_sortEntries E.stdsort _ _ h1
  refine ⟨by rw [hdb]; exact ordered_of_keys _ _ hk h.1, ?_⟩
  intro t
  have hperm := postingsOf_sort_perm E db db1 hs t
  obtain ⟨hnd, hb⟩ := h.2 t
  refine ⟨((hperm.map Prod.fst).nodup_iff).2 hnd, ?_⟩
  intro p hp
  have := hb p (hperm.mem_iff.1 hp)
  rw [hdb]
  exact this
theorem WellFormed_foldl_readDoc (E : Env) (fs : FS) :
    ∀ (files : List String) (db : Database), WellFormed db →
      WellFormed (files.foldl (Database.readDoc E fs) db) := by
  intro files
  induction files with
  | nil => intro db h; exact h
  | cons f rest ih => intro db h; exact ih _ (WellFormed_readDoc E fs db f h)

theorem Ascending_foldl_readDoc (E : Env) (fs : FS) :
    ∀ (files : List String) (db : Database), WellFormed db → Ascending db →
      Ascending (files.foldl (Database.readDoc E fs) db) := by
  intro files
  induction files with
  | nil => intro db _ h; exact h
  | cons f rest ih =>
    intro db hw h
    exact ih _ (WellFormed_readDoc E fs db f hw) (Ascending_readDoc E fs db f hw h)

theorem ordered_queryList (E : Env) (fs : FS) (topnum : Int) :
    ∀ (ws : List String) (s : Database × OStream), StdMap.Ordered s.1.invert_index_ →
      StdMap.Ordered
        (ws.foldl (fun s word => Database.queryWord E fs s.1 word topnum s.2) s).1.invert_index_ := by
  intro ws
  induction ws with
  | nil => intro s h; exact h
  | cons w rest ih => intro s h; exact ih _ (ordered_queryWord E fs s.1 w topnum s.2 h)

theorem shape_exec (E : Env) (fs : FS) (s s1 : State) (c : Cmd)
    (hx : exec E fs s c = some s1) :
    (WellFormed s.db → WellFormed s1.db) ∧
    (c ≠ Cmd.sort → WellFormed s.db → Ascending s.db → Ascending s1.db) := by
  cases c with
  | readDoc file =>
    simp only [exec, Option.some.injEq] at hx
    subst hx
    exact ⟨WellFormed_readDoc E fs s.db file, fun _ => Ascending_readDoc E fs s.db file⟩
  | readDocList filelist =>
    simp only [exec, Option.some.injEq] at hx
    subst hx
    simp only [Database.readDocList]
    cases fs filelist with
    | none => exact ⟨id, fun _ _ h => h⟩
    | some content =>
      exact ⟨WellFormed_foldl_readDoc E fs _ s.db,
        fun _ => Ascending_foldl_readDoc E fs _ s.db⟩
  | readStopWord file =>
    simp only [exec, Option.some.injEq] at hx
    subst hx
    have h1 : (s.db.readStopWord fs file).invert_index_ = s.db.invert_index_ := by
      unfold Database.readStopWord; cases fs file <;> rfl
    have h2 : (s.db.readStopWord fs file).docIDs_ = s.db.docIDs_ := by
      unfold Database.readStopWord; cases fs file <;> rfl
    refine ⟨fun h => WellFormed_congr s.db _ h2 (fun t => by rw [h1]) (by rw [h1]; exact h.1) h,
      fun _ _ h => Ascending_congr s.db _ (fun t => by rw [h1]) h⟩
  | queryWord word topnum =>
    simp only [exec, Option.some.injEq] at hx
    subst hx
    refine ⟨fun h => WellFormed_congr s.db _ (queryWord_docIDs ..)
        (fun t => queryWord_get E fs s.db word topnum s.out t)
        (ordered_queryWord E fs s.db word topnum s.out h.1) h,
      fun _ _ h => Ascending_congr s.db _
        (fun t => queryWord_get E fs s.db word topnum s.out t) h⟩
  | queryList wordfile topnum =>
    simp only [exec, Option.some.injEq] at hx
    subst hx
    obtain ⟨h1, _, h3⟩ := queryList_keeps E fs s.db wordfile topnum s.out
    have ho : StdMap.Ordered s.db.invert_index_ →
        StdMap.Ordered (s.db.queryList E fs wordfile topnum s.out).1.invert_index_ := by
      intro h
      unfold Database.queryList
      cases fs wordfile with
      | none => exact h
      | some content => exact ordered_queryList E fs topnum _ (s.db, s.out) h
    exact ⟨fun h => WellFormed_congr s.db _ h1 h3 (ho h.1) h,
      fun _ _ h => Ascending_congr s.db _ h3 h⟩
  | sort =>
    simp only [exec, Option.map_eq_some'] at hx
    obtain ⟨db1, hs, rfl⟩ := hx
    exact ⟨WellFormed_sort E s.db db1 hs, fun hne => absurd rfl hne⟩
  | showInfo =>
    simp only [exec, Option.some.injEq] at hx
    subst hx
    exact ⟨id, fun _ _ h => h⟩
  | showTerms =>
    simp only [exec, Option.some.injEq] at hx
    subst hx
    exact ⟨id, fun _ _ h => h⟩

theorem WellFormed_run (E : Env) :
    ∀ (calls : List (FS × Cmd)) (s s1 : State), WellFormed s.db →
      run E calls s = some s1 → WellFormed s1.db := by
  intro calls
  induction calls with
  | nil =>
    intro s s1 h hr
    simp only [run, Option.some.injEq] at hr
    subst hr
    exact h
  | cons x rest ih =>
    intro s s1 h hr
    obtain ⟨fs, c⟩ := x
    simp only [run] at hr
    cases hx : exec E fs s c with
    | none => simp [hx] at hr
    | some s2 =>
      simp only [hx] at hr
      exact ih s2 s1 ((shape_exec E fs s s2 c hx).1 h) hr

theorem Ascending_run (E : Env) :
    ∀ (calls : List (FS × Cmd)) (s s1 : State), (∀ x ∈ calls, x.2 ≠ Cmd.sort) →
      WellFormed s.db → Ascending s.db → run E calls s = some s1 → Ascending s1.db := by
  intro calls
  induction calls with
  | nil =>
    intro s s1 _ _ h hr
    simp only [run, Option.some.injEq] at hr
    subst hr
    exact h
  | cons x rest ih =>
    intro s s1 hns hw h hr
    obtain ⟨fs, c⟩ := x
    simp only [run] at hr
    cases hx : exec E fs s c with
    | none => simp [hx] at hr
    | some s2 =>
      simp only [hx] at hr
      have hc : c ≠ Cmd.sort := hns (fs, c) (List.mem_cons_self _ _)
      exact ih s2 s1 (fun y hy => hns y (List.mem_cons_of_mem _ hy))
        ((shape_exec E fs s s2 c hx).1 hw) ((shape_exec E fs s s2 c hx).2 hc hw h) hr

theorem WellFormed_fresh (check : Bool) : WellFormed (Database.fresh check) := by
  refine ⟨List.Pairwise.nil, ?_⟩
  intro t
  simp [Database.postingsOf, Database.fresh, Index.get, StdMap.find?]

theorem Ascending_fresh (check : Bool) : Ascending (Database.fresh check) := by
  intro t
  simp [Database.postingsOf, Database.fresh, Index.get, StdMap.find?]

/-- C12: in every state reached from a fresh database, every posting list of
the index holds at most one posting per document id, only counts of at least
one, and only ids below the document count. The property (with the key order
of the index) holds of a fresh database and is kept by every call: `readDoc`,
`readDocList`, `readStopWord`, `queryWord`, `queryList`, `sort` and the `show`
calls. -/
theorem C12_lists_well_formed (E : Env) (check : Bool) (calls : List (FS × Cmd)) (s : State)
    (h : run E calls (State.fresh check) = some s) :
    (∀ e ∈ s.db.invert_index_, ∀ L, e.2 = some L →
      (L.map Prod.fst).Nodup ∧ ∀ p ∈ L, p.1 < s.db.docIDs_.size ∧ 1 ≤ p.2) ∧
    WellFormed (Database.fresh check) ∧
    (∀ (fs : FS) (s0 s1 : State) (c : Cmd),
      WellFormed s0.db → exec E fs s0 c = some s1 → WellFormed s1.db) := by
  have hw : WellFormed s.db :=
    WellFormed_run E calls (State.fresh check) s (WellFormed_fresh check) h
  refine ⟨?_, WellFormed_fresh check, fun fs s0 s1 c h0 hx => (shape_exec E fs s0 s1 c hx).1 h0⟩
  intro e he L hL
  have := hw.2 e.1
  rw [postingsOf_of_mem s.db hw.1 e he L hL] at this
  exact this

/-- Witness of C12: two documents read and the lists sorted. -/
theorem C12_lists_well_formed_witness :
    run rbtEnv tieCalls (State.fresh true) ≠ none ∧
    (∀ e ∈ ((run rbtEnv tieCalls (State.fresh true)).getD (State.fresh true)).db.invert_index_,
      ∀ L, e.2 = some L → (L.map Prod.fst).Nodup ∧ ∀ p ∈ L,
        p.1 < ((run rbtEnv tieCalls (State.fresh true)).getD
          (State.fresh true)).db.docIDs_.size ∧ 1 ≤ p.2) :=
  ⟨by decide,
    (C12_lists_well_formed rbtEnv true tieCalls
      ((run rbtEnv tieCalls (State.fresh true)).getD (State.fresh true)) (by decide)).1⟩

/-- C18: in every state reached from a fresh database by calls none of which
is `sort`, every posting list of the index has its document ids strictly
increasing from the first posting to the last. -/
theorem C18_ingestion_order (E : Env) (check : Bool) (calls : List (FS × Cmd)) (s : State)
    (h : run E calls (State.fresh check) = some s) (hns : ∀ x ∈ calls, x.2 ≠ Cmd.sort) :
    ∀ e ∈ s.db.invert_index_, ∀ L, e.2 = some L →
      ∀ (i j : Nat) (p q : Posting), i < j → L[i]? = some p → L[j]? = some q → p.1 < q.1 := by
  have hw : WellFormed s.db :=
    WellFormed_run E calls (State.fresh check) s (WellFormed_fresh check) h
  have ha : Ascending s.db :=
    Ascending_run E calls (State.fresh check) s hns (WellFormed_fresh check)
      (Ascending_fresh check) h
  intro e he L hL i j p q hij hi hj
  have hasc := ha e.1
  rw [postingsOf_of_mem s.db hw.1 e he L hL] at hasc
  have hpw : L.Pairwise (fun a b => a.1 < b.1) := List.pairwise_map.1 hasc
  obtain ⟨hi1, rfl⟩ := List.getElem?_eq_some.1 hi
  obtain ⟨hj1, rfl⟩ := List.getElem?_eq_some.1 hj
  exact List.pairwise_iff_getElem.1 hpw i j hi1 hj1 hij

/-- Witness of C18: the two documents read one after the other; `cat` has the
postings of document `0` and document `1`, in this order. -/
theorem C18_ingestion_order_witness :
    run rbtEnv [(catFS, Cmd.readDoc "doc"), (catFS, Cmd.readDoc "doc2")] (State.fresh true) =
      some { db := twoDocs, out := OStream.cout } ∧
    twoDocs.postingsOf "cat" = [(0, 2), (1, 1)] ∧
    ∀ e ∈ twoDocs.invert_index_, ∀ L, e.2 = some L →
      ∀ (i j : Nat) (p q : Posting), i < j → L[i]? = some p → L[j]? = some q → p.1 < q.1 :=
  ⟨by decide, by decide,
    C18_ingestion_order rbtEnv true
      [(catFS, Cmd.readDoc "doc"), (catFS, Cmd.readDoc "doc2")]
      { db := twoDocs, out := OStream.cout } (by decide) (by decide)⟩
/-! ## C13, C14: calls that leave the database alone -/

/-- C13: when the path cannot be opened, `readDoc`, `readDocList` and
`readStopWord` return the database they were given (index, registry and stop
words, so no document id is used up), and `queryList` returns the database and
the stream it was given. -/
theorem C13_unopenable_is_noop (E : Env) (fs : FS) (db : Database) (path : String)
    (topnum : Int) (out : OStream) (h : fs path = none) :
    db.readDoc E fs path = db ∧ db.readDocList E fs path = db ∧
      db.readStopWord fs path = db ∧ db.queryList E fs path topnum out = (db, out) := by
  simp [Database.readDoc, Database.readDocList, Database.readStopWord, Database.queryList, h]

/-- Witness of C13: the path `missing` on a database holding two documents. -/
theorem C13_unopenable_is_noop_witness :
    catFS "missing" = none ∧
    twoDocs.readDoc rbtEnv catFS "missing" = twoDocs ∧
      twoDocs.readDocList rbtEnv catFS "missing" = twoDocs ∧
      twoDocs.readStopWord catFS "missing" = twoDocs ∧
      twoDocs.queryList rbtEnv catFS "missing" 1 OStream.cout = (twoDocs, OStream.cout) :=
  ⟨by decide, C13_unopenable_is_noop rbtEnv catFS twoDocs "missing" 1 OStream.cout (by decide)⟩

theorem forall₂_sortEntries (S : StdSort) :
    ∀ (idx idx1 : Index), sortEntries S idx = some idx1 →
      List.Forall₂ (fun e1 e => e1.1 = e.1 ∧
        ∃ L L1, e.2 = some L ∧ e1.2 = some L1 ∧ L1.Perm L) idx1 idx := by
  intro idx
  induction idx with
  | nil =>
    intro idx1 h
    simp only [sortEntries, Option.some.injEq] at h
    subst h
    exact List.Forall₂.nil
  | cons x rest ih =>
    intro idx1 h
    obtain ⟨k, v⟩ := x
    cases v with
    | none => simp [sortEntries] at h
    | some posting =>
      simp only [sortEntries, Option.map_eq_some'] at h
      obtain ⟨r, hr, rfl⟩ := h
      exact List.Forall₂.cons ⟨rfl, posting, _, rfl, rfl, S.perm byCount posting⟩ (ih r hr)

/-- C17: when `sort` returns, the index has the same entries in the same
places, each with the same key and a posting list that is a rearrangement of
the list it had (same postings, same multiplicities); the document registry
and the stop-word set are unchanged. -/
theorem C17_sort_reorders (E : Env) (db db1 : Database) (h : db.sort E = some db1) :
    List.Forall₂ (fun e1 e => e1.1 = e.1 ∧
        ∃ L L1, e.2 = some L ∧ e1.2 = some L1 ∧ L1.Perm L)
      db1.invert_index_ db.invert_index_ ∧
    db1.invert_index_.map Prod.fst = db.invert_index_.map Prod.fst ∧
    (∀ t, (db1.postingsOf t).Perm (db.postingsOf t)) ∧
    db1.docIDs_ = db.docIDs_ ∧ db1.stop_words_ = db.stop_words_ := by
  obtain ⟨idx1, h1, hdb⟩ := sort_eq_some E db db1 h
  refine ⟨?_, ?_, fun t => postingsOf_sort_perm E db db1 h t, ?_, ?_⟩
  · rw [hdb]; exact forall₂_sortEntries E.stdsort _ _ h1
  · rw [hdb]; exact keys_sortEntries E.stdsort _ _ h1
  · rw [hdb]
  · rw [hdb]

/-! ## C15, C19: the key a query leaves behind -/

/-- C15, the code at the failing input: after one document is read and a
word that occurs in no document is asked for, `showTerms` of the `RBT` build
lists that word among the terms and counts it, although it has no posting.
The `ART` build lists the six terms of the document. -/
theorem C15_query_word_listed :
    (run rbtEnv [(catFS, Cmd.readDoc "doc"), (catFS, Cmd.queryWord "zebra" (-1)),
        (catFS, Cmd.showTerms)] (State.fresh false)).map (fun s => written OStream.cout s.out) =
      some [Line.querying "zebra", Line.notFound "zebra", Line.termsHeader, Line.term "cat",
        Line.term "mat", Line.term "on", Line.term "ran", Line.term "sat", Line.term "the",
        Line.term "zebra", Line.termsCount 7] ∧
    (run rbtEnv [(catFS, Cmd.readDoc "doc"), (catFS, Cmd.queryWord "zebra" (-1)),
        (catFS, Cmd.showTerms)] (State.fresh false)).map (fun s => s.db.postingsOf "zebra") =
      some [] ∧
    (run artEnv [(catFS, Cmd.readDoc "doc"), (catFS, Cmd.queryWord "zebra" (-1)),
        (catFS, Cmd.showTerms)] (State.fresh false)).map (fun s => written OStream.cout s.out) =
      some [Line.querying "zebra", Line.notFound "zebra", Line.termsHeader, Line.term "cat",
        Line.term "mat", Line.term "on", Line.term "ran", Line.term "sat", Line.term "the",
        Line.termsCount 6] := by
  decide

/-- C19, the code at the failing input: in the `RBT` and `HASH` builds, after
a document is read and a word that is not in the index is asked for, the index
holds that word bound to a null pointer, and the `sort` that follows
dereferences it. In the `ART` build the same calls run through. -/
theorem C19_sort_after_query_fails :
    (run rbtEnv [(catFS, Cmd.readDoc "doc"), (catFS, Cmd.queryWord "zebra" (-1))]
        (State.fresh false)).map (fun s => StdMap.find? s.db.invert_index_ "zebra") =
      some (some none) ∧
    run rbtEnv zebraCalls (State.fresh false) = none ∧
    run hashEnv zebraCalls (State.fresh false) = none ∧
    run artEnv zebraCalls (State.fresh false) ≠ none := by
  decide
/-! ## C16: repeated queries -/

theorem sameSince_put (b1 b2 : List Line) (o1 o2 : OStream) (l : Line)
    (h : SameSince b1 b2 o1 o2) : SameSince b1 b2 (o1.put l) (o2.put l) := by
  obtain ⟨hg, x, h1, h2⟩ := h
  unfold OStream.put
  rw [← hg]
  cases hgood : o1.good with
  | false => exact ⟨by simp [← hg, hgood], x, by simpa using h1, by simpa using h2⟩
  | true =>
    refine ⟨by simp [← hg, hgood], x ++ [l], ?_, ?_⟩
    · simp [h1]
    · simp [h2]

theorem sameSince_printPostings (b1 b2 : List Line) :
    ∀ (L : postings) (topnum : Int) (o1 o2 : OStream), SameSince b1 b2 o1 o2 →
      SameSince b1 b2 (printPostings L topnum o1) (printPostings L topnum o2) := by
  intro L
  induction L with
  | nil => intro topnum o1 o2 h; exact h
  | cons doc rest ih =>
    intro topnum o1 o2 h
    simp only [printPostings]
    split
    · exact h
    · exact ih _ _ _ (sameSince_put b1 b2 o1 o2 _ h)

theorem sameSince_checkTail (E : Env) (fs : FS) (d : DocIDs) (word : String) (L : postings)
    (b1 b2 : List Line) (o1 o2 : OStream) (h : SameSince b1 b2 o1 o2) :
    SameSince b1 b2 (checkTail E fs d word L o1) (checkTail E fs d word L o2) := by
  unfold checkTail
  cases d with
  | count n => exact h
  | paths v =>
    simp only
    split <;> exact sameSince_put b1 b2 o1 o2 _ h

theorem sameSince_queryWord (E : Env) (fs : FS) (db1 db2 : Database) (w : String)
    (topnum : Int) (b1 b2 : List Line) (o1 o2 : OStream) (ha : Agree db1 db2)
    (h : SameSince b1 b2 o1 o2) :
    SameSince b1 b2 (db1.queryWord E fs w topnum o1).2 (db2.queryWord E fs w topnum o2).2 := by
  obtain ⟨hs, hd, hg⟩ := ha
  have hq := sameSince_put b1 b2 o1 o2 (Line.querying w) h
  simp only [Database.queryWord, Index.lookup_snd, hs, hd, hg (stemming E w)]
  split
  · exact sameSince_put _ _ _ _ _ hq
  · cases Index.get db2.invert_index_ (stemming E w) with
    | none => exact sameSince_put _ _ _ _ _ hq
    | some L =>
      simp only
      rw [← hq.1]
      split
      · exact hq
      · apply sameSince_checkTail
        split
        · exact hq
        · exact sameSince_printPostings _ _ _ _ _ _ hq

theorem written_of_sameSince (o1 o2 r1 r2 : OStream)
    (h : SameSince o1.lines o2.lines r1 r2) : written o1 r1 = written o2 r2 := by
  obtain ⟨_, x, h1, h2⟩ := h
  simp [written, h1, h2]

theorem agree_queryWord (E : Env) (fs : FS) (db : Database) (w : String) (topnum : Int)
    (out : OStream) : Agree (db.queryWord E fs w topnum out).1 db :=
  ⟨queryWord_stop_words .., queryWord_docIDs ..,
    fun t => queryWord_get E fs db w topnum out t⟩

theorem good_queryWord (E : Env) (fs : FS) (db : Database) (w : String) (topnum : Int)
    (out : OStream) : (db.queryWord E fs w topnum out).2.good = out.good := by
  have h := sameSince_queryWord E fs db db w topnum out.lines out.lines out out
    ⟨rfl, rfl, fun _ => rfl⟩ ⟨rfl, [], by simp, by simp⟩
  have hput : ∀ (o : OStream) (l : Line), (o.put l).good = o.good := by
    intro o l
    unfold OStream.put
    split <;> rfl
  have hprint : ∀ (L : postings) (n : Int) (o : OStream),
      (printPostings L n o).good = o.good := by
    intro L
    induction L with
    | nil => intro n o; rfl
    | cons doc rest ih =>
      intro n o
      simp only [printPostings]
      split
      · rfl
      · rw [ih, hput]
  have hcheck : ∀ (d : DocIDs) (word : String) (L : postings) (o : OStream),
      (checkTail E fs d word L o).good = o.good := by
    intro d word L o
    unfold checkTail
    cases d with
    | count n => rfl
    | paths v => simp only; split <;> exact hput _ _
  simp only [Database.queryWord]
  split
  · rw [hput, hput]
  · split
    · rw [hput, hput]
    · split
      · rw [hput]
      · rw [hcheck]
        split
        · rw [hput]
        · rw [hprint, hput]

theorem queryRow_keeps (E : Env) (fs : FS) (w : String) (topnum : Int) (db : Database)
    (out : OStream) :
    ∀ n, Agree (queryRow E fs w topnum n (db, out)).1 db ∧
      (queryRow E fs w topnum n (db, out)).2.good = out.good := by
  intro n
  induction n with
  | zero => exact ⟨⟨rfl, rfl, fun _ => rfl⟩, rfl⟩
  | succ n ih =>
    obtain ⟨⟨h1, h2, h3⟩, hg⟩ := ih
    obtain ⟨a1, a2, a3⟩ := agree_queryWord E fs (queryRow E fs w topnum n (db, out)).1 w topnum
      (queryRow E fs w topnum n (db, out)).2
    simp only [queryRow]
    exact ⟨⟨a1.trans h1, a2.trans h2, fun t => (a3 t).trans (h3 t)⟩,
      (good_queryWord ..).trans hg⟩

/-- C16: when `queryWord(w, topnum)` is called any number of times in a row
on one stream, with the same files and no other call in between, every call
writes the lines the first call wrote: the same result kind, the same postings
in the same order, and in the `CHECK` build the same verdict. -/
theorem C16_query_repeatable (E : Env) (fs : FS) (db : Database) (w : String) (topnum : Int)
    (out : OStream) (n : Nat) :
    written (queryRow E fs w topnum n (db, out)).2 (queryRow E fs w topnum (n + 1) (db, out)).2 =
      written out (db.queryWord E fs w topnum out).2 := by
  obtain ⟨ha, hg⟩ := queryRow_keeps E fs w topnum db out n
  apply written_of_sameSince
  simp only [queryRow]
  exact sameSince_queryWord E fs _ db w topnum _ _ _ _ ha ⟨hg, [], by simp, by simp⟩
/-! ## The `ART` build: no key without a posting list -/

theorem noNull_set (idx : Index) (key : String) (L : postings) (hL : L ≠ [])
    (h : NoNull idx) : NoNull (StdMap.set idx key (some L)) := by
  intro e he
  rcases StdMap.mem_set idx key (some L) e he with rfl | hmem
  · exact ⟨L, rfl, hL⟩
  · exact h e hmem

theorem noNull_insertPosting (docID : Nat) (idx : Index) (word : String × Nat)
    (h : NoNull idx) : NoNull (insertPosting Backend.ART docID idx word) := by
  unfold insertPosting
  simp only [Index.lookup]
  split <;> exact noNull_set _ _ _ (by simp) h

theorem noNull_readDoc (E : Env) (hE : E.backend = Backend.ART) (fs : FS) (db : Database)
    (file : String) (h : NoNull db.invert_index_) :
    NoNull (db.readDoc E fs file).invert_index_ := by
  unfold Database.readDoc
  cases fs file with
  | none => exact h
  | some content =>
    simp only [hE]
    generalize countWords E db.stop_words_ (tokens content) [] = es
    generalize db.invert_index_ = idx at h
    induction es generalizing idx with
    | nil => exact h
    | cons e rest ih => exact ih _ (noNull_insertPosting _ idx e h)

theorem queryWord_art (E : Env) (hE : E.backend = Backend.ART) (fs : FS) (db : Database)
    (w : String) (topnum : Int) (out : OStream) : (db.queryWord E fs w topnum out).1 = db := by
  unfold Database.queryWord
  simp only [hE, Index.lookup]
  split
  · rfl
  · split
    · rfl
    · split <;> rfl

theorem noNull_sortEntries (S : StdSort) :
    ∀ (idx : Index), NoNull idx →
      ∃ idx1, sortEntries S idx = some idx1 ∧ NoNull idx1 := by
  intro idx
  induction idx with
  | nil => intro _; exact ⟨[], rfl, fun e he => by cases he⟩
  | cons x rest ih =>
    intro h
    obtain ⟨k, v⟩ := x
    obtain ⟨L, hv, hL⟩ := h (k, v) (List.mem_cons_self _ _)
    simp only at hv
    subst hv
    obtain ⟨r, hr, hn⟩ := ih (fun e he => h e (List.mem_cons_of_mem _ he))
    refine ⟨(k, some (S.sort byCount L)) :: r, by simp [sortEntries, hr], ?_⟩
    intro e he
    rcases List.mem_cons.1 he with rfl | hmem
    · refine ⟨_, rfl, ?_⟩
      intro h0
      have := (S.perm byCount L).length_eq
      rw [h0] at this
      exact hL (List.length_eq_zero.1 this.symm)
    · exact hn e hmem

/-- In the `ART` build every call returns, and in every state reached from a
fresh database each key of the index is bound to a posting list that is not
empty: the loop of `sort` never meets a null pointer. -/
theorem art_run_safe (E : Env) (hE : E.backend = Backend.ART) :
    ∀ (calls : List (FS × Cmd)) (s : State), NoNull s.db.invert_index_ →
      ∃ s1, run E calls s = some s1 ∧ NoNull s1.db.invert_index_ := by
  intro calls
  induction calls with
  | nil => intro s h; exact ⟨s, rfl, h⟩
  | cons x rest ih =>
    intro s h
    obtain ⟨fs, c⟩ := x
    have step : ∃ s2, exec E fs s c = some s2 ∧ NoNull s2.db.invert_index_ := by
      cases c with
      | readDoc file => exact ⟨_, rfl, noNull_readDoc E hE fs s.db file h⟩
      | readDocList filelist =>
        refine ⟨_, rfl, ?_⟩
        simp only [Database.readDocList]
        cases fs filelist with
        | none => exact h
        | some content =>
          simp only
          generalize tokens content = files
          generalize s.db = db at h
          induction files generalizing db with
          | nil => exact h
          | cons f more ih2 => exact ih2 _ (noNull_readDoc E hE fs db f h)
      | readStopWord file =>
        refine ⟨_, rfl, ?_⟩
        have : (s.db.readStopWord fs file).invert_index_ = s.db.invert_index_ := by
          unfold Database.readStopWord; cases fs file <;> rfl
        simp only [this]
        exact h
      | queryWord word topnum =>
        refine ⟨_, rfl, ?_⟩
        simp only [queryWord_art E hE]
        exact h
      | queryList wordfile topnum =>
        refine ⟨_, rfl, ?_⟩
        simp only [Database.queryList]
        cases fs wordfile with
        | none => exact h
        | some content =>
          simp only
          generalize tokens content = ws
          have key : ∀ (ws : List String) (p : Database × OStream),
              NoNull p.1.invert_index_ →
              NoNull (ws.foldl (fun s word => Database.queryWord E fs s.1 word topnum s.2)
                p).1.invert_index_ := by
            intro ws
            induction ws with
            | nil => intro p hp; exact hp
            | cons w more ih2 =>
              intro p hp
              apply ih2
              rw [queryWord_art E hE]
              exact hp
          exact key ws (s.db, s.out) h
      | sort =>
        obtain ⟨idx1, h1, hn⟩ := noNull_sortEntries E.stdsort s.db.invert_index_ h
        exact ⟨{ s with db := { s.db with invert_index_ := idx1 } },
          by simp [exec, Database.sort, h1], hn⟩
      | showInfo => exact ⟨_, rfl, h⟩
      | showTerms => exact ⟨_, rfl, h⟩
    obtain ⟨s2, hx, hn⟩ := step
    obtain ⟨s1, hr, hn1⟩ := ih s2 hn
    exact ⟨s1, by simp [run, hx, hr], hn1⟩

/-! ## What `showTerms` writes -/

theorem showTermsLoop_spec :
    ∀ (idx : Index) (out : OStream) (count : Nat), out.good = true → count < 2 ^ 32 →
      (showTermsLoop idx out count).1.good = true ∧
      (showTermsLoop idx out count).1.lines = out.lines ++ idx.map (fun e => Line.term e.1) ∧
      (showTermsLoop idx out count).2 = (count + idx.length) % 2 ^ 32 := by
  intro idx
  induction idx with
  | nil =>
    intro out count hg hc
    exact ⟨hg, by simp [showTermsLoop], by
      simp only [showTermsLoop, List.length_nil, Nat.add_zero]
      exact (Nat.mod_eq_of_lt hc).symm⟩
  | cons e rest ih =>
    intro out count hg hc
    obtain ⟨hl, hg1⟩ := lines_put out (Line.term e.1) hg
    obtain ⟨h1, h2, h3⟩ := ih (out.put (Line.term e.1)) ((count + 1) % 2 ^ 32) hg1
      (Nat.mod_lt _ (by decide))
    simp only [showTermsLoop]
    refine ⟨h1, ?_, ?_⟩
    · rw [h2, hl]; simp
    · rw [h3, List.length_cons, Nat.mod_add_mod]
      congr 1
      omega

/-- On a writable stream `showTerms` writes its heading, the keys of the index
one per line in the order of the index, and the number of keys (modulo
`2^32`). -/
theorem showTerms_lines (db : Database) (out : OStream) (hg : out.good = true) :
    (db.showTerms out).lines =
      out.lines ++ Line.termsHeader :: (db.invert_index_.map (fun e => Line.term e.1) ++
        [Line.termsCount (db.invert_index_.length % 2 ^ 32)]) := by
  obtain ⟨hl, hg1⟩ := lines_put out Line.termsHeader hg
  obtain ⟨h1, h2, h3⟩ := showTermsLoop_spec db.invert_index_ (out.put Line.termsHeader) 0 hg1
    (by decide)
  simp only [Database.showTerms]
  rw [(lines_put _ _ h1).1, h2, h3, hl]
  simp
/-- C3, as stated, fails: `queryWord` normalises the word it is given, and the
normal form of an indexed term need not be the term. A document holding
`agreed` is indexed under `agre`; `agre` is in the index with the posting
`(0, 1)` and is not a stop word, yet `queryWord` for `agre` looks up `agr`,
prints no posting and reports the word as not found. -/
theorem C3_term_by_name_not_found :
    StdMap.find? ((Database.fresh false).readDoc stemEnv seventeenFS "agreed").invert_index_
      "agre" = some (some [(0, 1)]) ∧
    "agre" ∉ ((Database.fresh false).readDoc stemEnv seventeenFS "agreed").stop_words_ ∧
    stemming stemEnv "agre" = "agr" ∧
    (((Database.fresh false).readDoc stemEnv seventeenFS "agreed").queryWord stemEnv seventeenFS
      "agre" (-1) OStream.cout).2.lines = [Line.querying "agre", Line.notFound "agr"] := by
  decide

/-- C7, as stated, fails: seventeen documents hold the word `cat` once each;
after they are read and `sort` is called, with the `std::sort` of libstdc++,
the postings of `cat`, all of count `1`, stand in the id order
`8 16 15 14 13 12 11 10 9 0 7 6 5 4 3 2 1`. -/
theorem C7_ties_not_by_id :
    (run gnuEnv seventeenCalls (State.fresh false)).map (fun s => s.db.postingsOf "cat") =
      some [(8, 1), (16, 1), (15, 1), (14, 1), (13, 1), (12, 1), (11, 1), (10, 1), (9, 1),
        (0, 1), (7, 1), (6, 1), (5, 1), (4, 1), (3, 1), (2, 1), (1, 1)] := by
  decide

/-- C8, as stated, fails: on the seventeen postings of `cat`, all of count
`1`, a second `sort` with the `std::sort` of libstdc++ leaves the id order
`9 1 2 3 4 5 6 7 0 8 10 11 12 13 14 15 16`, not the order the first `sort`
left. -/
theorem C8_second_sort_differs :
    (run gnuEnv seventeenCalls (State.fresh false)).map (fun s => s.db.postingsOf "cat") =
      some [(8, 1), (16, 1), (15, 1), (14, 1), (13, 1), (12, 1), (11, 1), (10, 1), (9, 1),
        (0, 1), (7, 1), (6, 1), (5, 1), (4, 1), (3, 1), (2, 1), (1, 1)] ∧
    (run gnuEnv (seventeenCalls ++ [(seventeenFS, Cmd.sort)]) (State.fresh false)).map
        (fun s => s.db.postingsOf "cat") =
      some [(9, 1), (1, 1), (2, 1), (3, 1), (4, 1), (5, 1), (6, 1), (7, 1), (0, 1), (8, 1),
        (10, 1), (11, 1), (12, 1), (13, 1), (14, 1), (15, 1), (16, 1)] ∧
    run gnuEnv (seventeenCalls ++ [(seventeenFS, Cmd.sort)]) (State.fresh false) ≠
      run gnuEnv seventeenCalls (State.fresh false) := by
  decide

/-! ## The `std::sort` of libstdc++ on short ranges -/

theorem gnuSort_short (l : postings) (h : l.length ≤ 16) :
    gnuSort.sort byCount l = stableSort.sort byCount l := by
  show gnuSortFn byCount l = stableSort.sort byCount l
  unfold gnuSortFn
  have : introsortLoop byCount (2 * lgAux l.length l.length) l 0 l.length = some l := by
    cases 2 * lgAux l.length l.length with
    | zero => simp [introsortLoop]; omega
    | succ n => simp [introsortLoop]; omega
  rw [this]

theorem ties_orderedInsert (a : Posting) :
    ∀ (S : postings), TiesById S → (∀ b ∈ S, a.2 = b.2 → a.1 < b.1) →
      TiesById (List.orderedInsert (notBefore byCount) a S) := by
  intro S
  induction S with
  | nil => intro _ _; simp [TiesById]
  | cons b rest ih =>
    intro hS ha
    unfold TiesById at hS ih ⊢
    rw [List.pairwise_cons] at hS
    simp only [List.orderedInsert]
    split
    · exact List.pairwise_cons.2 ⟨ha, List.pairwise_cons.2 hS⟩
    · rename_i hnot
      have hgt : a.2 < b.2 := by
        simp only [notBefore, byCount, decide_eq_false_iff_not, not_not] at hnot
        exact hnot
      rw [List.pairwise_cons]
      refine ⟨?_, ih hS.2 (fun x hx => ha x (List.mem_cons_of_mem _ hx))⟩
      intro x hx
      rcases (List.mem_orderedInsert (notBefore byCount)).1 hx with rfl | hx
      · intro heq; omega
      · exact hS.1 x hx

theorem ties_insertionSort :
    ∀ (L : postings), TiesById L → TiesById (stableSort.sort byCount L) := by
  intro L
  induction L with
  | nil => intro h; exact h
  | cons a rest ih =>
    intro h
    have h2 := List.pairwise_cons.1 h
    show TiesById (List.orderedInsert (notBefore byCount) a
      (List.insertionSort (notBefore byCount) rest))
    apply ties_orderedInsert a _ (ih h2.2)
    intro b hb
    exact h2.1 b ((List.mem_insertionSort _).1 hb)

theorem tiesById_append_new (L : postings) (d c : Nat) (h : TiesById L)
    (hd : ∀ p ∈ L, p.1 < d) : TiesById (L ++ [(d, c)]) := by
  unfold TiesById at h ⊢
  rw [List.pairwise_append]
  refine ⟨h, by simp, ?_⟩
  intro a ha b hb _
  simp only [List.mem_singleton] at hb
  subst hb
  exact hd a ha

theorem ShortTies_readDoc (E : Env) (fs : FS) (db : Database) (file : String)
    (hw : WellFormed db) (h : ShortTies db) : ShortTies (db.readDoc E fs file) := by
  cases hf : fs file with
  | none => rw [readDoc_none E fs db file hf]; exact h
  | some content =>
    intro t
    obtain ⟨ha1, _⟩ := size_assign file db.docIDs_
    rw [postingsOf_readDoc E fs db file content t hf, ha1]
    split
    · rw [List.append_nil]; exact h t
    · intro hlen
      have hlen1 : (db.postingsOf t).length ≤ 16 := by
        simp only [List.length_append, List.length_singleton] at hlen
        omega
      exact tiesById_append_new _ _ _ (h t hlen1) (fun p hp => ((hw.2 t).2 p hp).1)

theorem ShortTies_foldl_readDoc (E : Env) (fs : FS) :
    ∀ (files : List String) (db : Database), WellFormed db → ShortTies db →
      ShortTies (files.foldl (Database.readDoc E fs) db) := by
  intro files
  induction files with
  | nil => intro db _ h; exact h
  | cons f rest ih =>
    intro db hw h
    exact ih _ (WellFormed_readDoc E fs db f hw) (ShortTies_readDoc E fs db f hw h)

theorem ShortTies_congr (db db1 : Database)
    (hp : ∀ t, Index.get db1.invert_index_ t = Index.get db.invert_index_ t)
    (h : ShortTies db) : ShortTies db1 := by
  intro t
  have : db1.postingsOf t = db.postingsOf t := by
    unfold Database.postingsOf; rw [hp t]
  rw [this]
  exact h t

theorem ShortTies_sort (E : Env) (hE : E.stdsort = gnuSort) (db db1 : Database)
    (hs : db.sort E = some db1) (h : ShortTies db) : ShortTies db1 := by
  intro t hlen
  have hget := get_sort E db db1 hs t
  have hold := h t
  unfold Database.postingsOf at hlen hold ⊢
  rw [hget] at hlen ⊢
  cases hL : Index.get db.invert_index_ t with
  | none => simp [TiesById]
  | some L =>
    rw [hL] at hlen hold
    simp only [Option.map_some', Option.getD_some] at hlen hold ⊢
    have hlen1 : L.length ≤ 16 := by
      rw [← (E.stdsort.perm byCount L).length_eq]; exact hlen
    rw [hE, gnuSort_short L hlen1]
    exact ties_insertionSort L (hold hlen1)

theorem ShortTies_exec (E : Env) (hE : E.stdsort = gnuSort) (fs : FS) (s s1 : State) (c : Cmd)
    (hx : exec E fs s c = some s1) (hw : WellFormed s.db) (h : ShortTies s.db) :
    ShortTies s1.db := by
  cases c with
  | readDoc file =>
    simp only [exec, Option.some.injEq] at hx
    subst hx
    exact ShortTies_readDoc E fs s.db file hw h
  | readDocList filelist =>
    simp only [exec, Option.some.injEq] at hx
    subst hx
    simp only [Database.readDocList]
    cases fs filelist with
    | none => exact h
    | some content => exact ShortTies_foldl_readDoc E fs _ s.db hw h
  | readStopWord file =>
    simp only [exec, Option.some.injEq] at hx
    subst hx
    have h1 : (s.db.readStopWord fs file).invert_index_ = s.db.invert_index_ := by
      unfold Database.readStopWord; cases fs file <;> rfl
    exact ShortTies_congr s.db _ (fun t => by rw [h1]) h
  | queryWord word topnum =>
    simp only [exec, Option.some.injEq] at hx
    subst hx
    exact ShortTies_congr s.db _ (fun t => queryWord_get E fs s.db word topnum s.out t) h
  | queryList wordfile topnum =>
    simp only [exec, Option.some.injEq] at hx
    subst hx
    exact ShortTies_congr s.db _ (queryList_keeps E fs s.db wordfile topnum s.out).2.2 h
  | sort =>
    simp only [exec, Option.map_eq_some'] at hx
    obtain ⟨db1, hs, rfl⟩ := hx
    exact ShortTies_sort E hE s.db db1 hs h
  | showInfo =>
    simp only [exec, Option.some.injEq] at hx
    subst hx
    exact h
  | showTerms =>
    simp only [exec, Option.some.injEq] at hx
    subst hx
    exact h

theorem ShortTies_run (E : Env) (hE : E.stdsort = gnuSort) :
    ∀ (calls : List (FS × Cmd)) (s s1 : State), WellFormed s.db → ShortTies s.db →
      run E calls s = some s1 → ShortTies s1.db := by
  intro calls
  induction calls with
  | nil =>
    intro s s1 _ h hr
    simp only [run, Option.some.injEq] at hr
    subst hr
    exact h
  | cons x rest ih =>
    intro s s1 hw h hr
    obtain ⟨fs, c⟩ := x
    simp only [run] at hr
    cases hx : exec E fs s c with
    | none => simp [hx] at hr
    | some s2 =>
      simp only [hx] at hr
      exact ih s2 s1 ((shape_exec E fs s s2 c hx).1 hw) (ShortTies_exec E hE fs s s2 c hx hw h) hr

/-! ## C7, C8: ties under `sort` -/

/-- C7, amended: with the `std::sort` of libstdc++, in every state reached
from a fresh database, and so after every `sort`, every posting list of the
index that holds at most 16 postings has any two postings of equal count in
ascending id order: the one with the smaller document id comes first. -/
theorem C7_short_lists_ties_by_id (E : Env) (hE : E.stdsort = gnuSort) (check : Bool)
    (calls : List (FS × Cmd)) (s : State) (h : run E calls (State.fresh check) = some s) :
    ∀ e ∈ s.db.invert_index_, ∀ L, e.2 = some L → L.length ≤ 16 →
      ∀ (i j : Nat) (p q : Posting), i < j → L[i]? = some p → L[j]? = some q →
        p.2 = q.2 → p.1 < q.1 := by
  have hw : WellFormed s.db :=
    WellFormed_run E calls (State.fresh check) s (WellFormed_fresh check) h
  have ht : ShortTies s.db := by
    refine ShortTies_run E hE calls (State.fresh check) s (WellFormed_fresh check) ?_ h
    intro t _
    simp [Database.postingsOf, State.fresh, Database.fresh, Index.get, StdMap.find?, TiesById]
  intro e he L hL hlen i j p q hij hi hj heq
  have hties := ht e.1
  rw [postingsOf_of_mem s.db hw.1 e he L hL] at hties
  obtain ⟨hi1, rfl⟩ := List.getElem?_eq_some.1 hi
  obtain ⟨hj1, rfl⟩ := List.getElem?_eq_some.1 hj
  exact List.pairwise_iff_getElem.1 (hties hlen) i j hi1 hj1 hij heq

/-- Witness of C7, amended: two documents read and the lists sorted; `on` and
`mat` occur once in each document, and their postings stay in id order. -/
theorem C7_short_lists_ties_by_id_witness :
    run gnuEnv tieCalls (State.fresh false) ≠ none ∧
    ((run gnuEnv tieCalls (State.fresh false)).getD (State.fresh false)).db.postingsOf "on" =
      [(0, 1), (1, 1)] ∧
    ∀ e ∈ ((run gnuEnv tieCalls (State.fresh false)).getD (State.fresh false)).db.invert_index_,
      ∀ L, e.2 = some L → L.length ≤ 16 →
        ∀ (i j : Nat) (p q : Posting), i < j → L[i]? = some p → L[j]? = some q →
          p.2 = q.2 → p.1 < q.1 :=
  ⟨by decide, by decide,
    C7_short_lists_ties_by_id gnuEnv rfl false tieCalls
      ((run gnuEnv tieCalls (State.fresh false)).getD (State.fresh false)) (by decide)⟩

/-- C8, amended: when `sort` succeeds, a second `sort` succeeds as well and
leaves the registry, the stop words and the keys of the index as they are;
every posting list is a rearrangement of the list the first call left, with
the same sequence of counts, so the two states can differ only in the order of
postings of equal count. With the `std::sort` of libstdc++ every posting list
of at most 16 postings is left exactly as the first call left it. -/
theorem C8_sort_twice_same_counts (E : Env) (db db1 : Database) (h : db.sort E = some db1) :
    ∃ db2, db1.sort E = some db2 ∧ db2.docIDs_ = db1.docIDs_ ∧
      db2.stop_words_ = db1.stop_words_ ∧
      db2.invert_index_.map Prod.fst = db1.invert_index_.map Prod.fst ∧
      (∀ t, (db2.postingsOf t).Perm (db1.postingsOf t) ∧
        (db2.postingsOf t).map Prod.snd = (db1.postingsOf t).map Prod.snd) ∧
      (E.stdsort = gnuSort → ∀ t, (db1.postingsOf t).length ≤ 16 →
        db2.postingsOf t = db1.postingsOf t) := by
  obtain ⟨idx1, h1, hdb1⟩ := sort_eq_some E db db1 h
  obtain ⟨idx2, h2⟩ := sortEntries_sorted_isSome E.stdsort _ _ h1
  have hs : db1.sort E = some { db1 with invert_index_ := idx2 } := by
    simp [Database.sort, hdb1, h2]
  refine ⟨_, hs, rfl, rfl, ?_, ?_, ?_⟩
  · have := keys_sortEntries E.stdsort idx1 idx2 h2
    simpa [hdb1] using this
  · intro t
    refine ⟨postingsOf_sort_perm E db1 _ hs t, ?_⟩
    unfold Database.postingsOf
    rw [get_sort E db1 _ hs t, get_sort E db db1 h t]
    cases Index.get db.invert_index_ t with
    | none => rfl
    | some p => exact counts_sort_sorted E.stdsort p
  · intro hE t hlen
    unfold Database.postingsOf at hlen ⊢
    rw [get_sort E db1 _ hs t]
    rw [get_sort E db db1 h t] at hlen ⊢
    cases hp : Index.get db.invert_index_ t with
    | none => rfl
    | some p =>
      rw [hp] at hlen
      simp only [Option.map_some', Option.getD_some] at hlen ⊢
      rw [hE] at hlen ⊢
      rw [gnuSort_short _ hlen]
      have hsorted : (gnuSort.sort byCount p).Sorted (notBefore byCount) :=
        gnuSort.sorted byCount p byCount_strictWeak
      exact List.Sorted.insertionSort_eq hsorted

/-- Witness of C8, amended: the seventeen documents read, then `sort` called
twice with the `std::sort` of libstdc++; the list of `cat` changes its order
but not its counts. -/
theorem C8_sort_twice_same_counts_witness :
    run gnuEnv seventeenCalls (State.fresh false) ≠ none ∧
    ∃ db2, ((run gnuEnv seventeenCalls (State.fresh false)).getD
        (State.fresh false)).db.sort gnuEnv = some db2 ∧
      (db2.postingsOf "cat").map Prod.snd =
        (((run gnuEnv seventeenCalls (State.fresh false)).getD
          (State.fresh false)).db.postingsOf "cat").map Prod.snd :=
  ⟨by decide, by
    obtain ⟨db2, h1, _, _, _, h5, _⟩ := C8_sort_twice_same_counts gnuEnv
      ((run gnuEnv [(seventeenFS, Cmd.readDocList "list")] (State.fresh false)).getD
        (State.fresh false)).db
      ((run gnuEnv seventeenCalls (State.fresh false)).getD (State.fresh false)).db (by decide)
    exact ⟨db2, h1, (h5 "cat").2⟩⟩

/-- Witness of C17: sorting the seventeen postings of `cat` with the
`std::sort` of libstdc++. -/
theorem C17_sort_reorders_witness :
    run gnuEnv [(seventeenFS, Cmd.readDocList "list")] (State.fresh false) ≠ none ∧
    (((run gnuEnv [(seventeenFS, Cmd.readDocList "list")] (State.fresh false)).getD
      (State.fresh false)).db.sort gnuEnv).map (fun db => db.postingsOf "cat") =
      some [(8, 1), (16, 1), (15, 1), (14, 1), (13, 1), (12, 1), (11, 1), (10, 1), (9, 1),
        (0, 1), (7, 1), (6, 1), (5, 1), (4, 1), (3, 1), (2, 1), (1, 1)] ∧
    (∀ t, (((run gnuEnv seventeenCalls (State.fresh false)).getD
        (State.fresh false)).db.postingsOf t).Perm
      (((run gnuEnv [(seventeenFS, Cmd.readDocList "list")] (State.fresh false)).getD
        (State.fresh false)).db.postingsOf t)) :=
  ⟨by decide, by decide,
    (C17_sort_reorders gnuEnv
      ((run gnuEnv [(seventeenFS, Cmd.readDocList "list")] (State.fresh false)).getD
        (State.fresh false)).db
      ((run gnuEnv seventeenCalls (State.fresh false)).getD (State.fresh false)).db
      (by decide)).2.2.1⟩
end ADS
